import Mathlib

/-!
Shallow embedding of the continuous-batching KV-cache bookkeeping implemented by
`ContinuousBatchingSpyreModelRunner` in `vllm_spyre/v1/worker/spyre_model_runner.py`.

The runner keeps
  * a free pool of cache-block ids (`self.block_pool`, a deque; `popleft` takes the
    head, `append` adds at the tail),
  * per-request block tables (`self.req_ids2blocks`, dict of deques),
  * a per-request worst-case reservation ledger (`self.req_ids2reserved_blocks`),
  * per-request cached state (`self.requests`, holding among other fields
    `left_padding`, `prompt_token_ids` and `output_token_ids`), and
  * the shared time cursor `self.tkv`.

Python dicts are modelled as insertion-ordered association lists keyed by a
numeric request id.  `self.requests` and `self.req_ids2blocks` are keyed in
lockstep in the source (both are written at `_prepare_prompt` and both are
unconditionally popped for a finished id in `update_states`), so they are fused
into one association list of `ReqEntry`.  The reservation ledger is kept as a
separate association list because `update_states` pops it only when the popped
block deque is truthy (non-empty).

Machine integers are modelled as `Nat` (all quantities involved are
non-negative in the source; the one signed quantity, the value returned by
`get_n_free_blocks`, is modelled as `Int`).  Calls that can raise in Python
(`popleft` from an empty deque, `dict.pop` of a missing key, indexing an empty
list) are modelled by returning `none`.  Division/modulo by zero cannot occur
in the source (`block_size` is a positive hardware constant); the `Nat`
conventions `n / 0 = 0`, `n % 0 = n` are never relied upon under the invariant
`0 < blockSize`.
-/

/-- `math.ceil(a / b)` for non-negative integers `a` and positive `b`. -/
def cdiv (a b : Nat) : Nat := (a + b - 1) / b

/-- Read access `d[k]` / `d.get(k)` on an insertion-ordered association list. -/
def alookup {α : Type} : List (Nat × α) → Nat → Option α
  | [], _ => none
  | (k, v) :: rest, key => if k = key then some v else alookup rest key

/-- Write access `d[k] = v`: update in place when the key exists, else append
(Python dict insertion order). -/
def aset {α : Type} : List (Nat × α) → Nat → α → List (Nat × α)
  | [], key, v => [(key, v)]
  | (k, w) :: rest, key, v =>
      if k = key then (k, v) :: rest else (k, w) :: aset rest key v

/-- Removal part of `d.pop(k, ...)`: drop the entry of `key` when present. -/
def aremove {α : Type} : List (Nat × α) → Nat → List (Nat × α)
  | [], _ => []
  | (k, w) :: rest, key => if k = key then rest else (k, w) :: aremove rest key

/-- Python `min(list)` over a non-empty list (`0` on `[]`, unused there). -/
def listMin : List Nat → Nat
  | [] => 0
  | [a] => a
  | a :: b :: rest => min a (listMin (b :: rest))

/-- The per-request state the claims depend on: the fused entry of
`req_ids2blocks[rid]` (field `blocks`) and `requests[rid]` (the
`CachedRequestState` fields `left_padding`, `output_token_ids`,
`prompt_token_ids`). -/
structure ReqEntry where
  blocks : List Nat
  leftPadding : Nat
  outputTokenIds : List Nat
  promptTokenIds : List Nat
deriving DecidableEq, Repr

/-- The mutable state of `ContinuousBatchingSpyreModelRunner`. -/
structure CBState where
  nBlocks : Nat
  blockSize : Nat
  tkv : Nat
  blockPool : List Nat
  reqs : List (Nat × ReqEntry)
  reserved : List (Nat × Nat)
deriving DecidableEq, Repr

/-- `__init__` together with `_set_blocks(num_blocks)`: a fresh pool
`deque(range(num_blocks))`, no resident requests, `tkv = 0`. -/
def initState (numBlocks blockSize : Nat) : CBState :=
  { nBlocks := numBlocks
    blockSize := blockSize
    tkv := 0
    blockPool := List.range numBlocks
    reqs := []
    reserved := [] }

/-- Total of the reservation ledger, `sum(self.req_ids2reserved_blocks.values())`. -/
def sumReserved (s : CBState) : Nat := (s.reserved.map Prod.snd).sum

/-- `get_n_free_blocks`: `self.n_blocks - sum(self.req_ids2reserved_blocks.values())`. -/
def getNFreeBlocks (s : CBState) : Int := (s.nBlocks : Int) - (sumReserved s : Int)

/-- All block ids currently held by resident requests, in residency order. -/
def heldBlocks (s : CBState) : List Nat := (s.reqs.map (fun p => p.2.blocks)).flatten

/-- The alignment guard of `_prepare_prompt`: when joining a non-empty decode
batch the source asserts `prompt_len <= self.tkv`. -/
def prefillAligned (s : CBState) (promptLen : Nat) : Bool :=
  s.reqs.isEmpty || decide (promptLen ≤ s.tkv)

/-- Sequence-length arithmetic of the overridden `pad_input_ids` of the
continuous-batching runner: the base `_prepare_pad_input_ids` left-pads to
`max(tkv, prompt_len)` (it is called with `min_pad_length = self.tkv`), then
`n_pads_right = min_pad_length - left_len` right pads are appended when that
difference is positive. -/
def cbPadInputIdsLen (tkv promptLen minPadLength : Nat) : Nat :=
  let leftPadLen := max tkv promptLen
  if leftPadLen < minPadLength then leftPadLen + (minPadLength - leftPadLen) else leftPadLen

/-- The outward-visible pieces of a prefill this development reasons about. -/
structure PrefillOut where
  slotMapping : List Nat
  inputLen : Nat
  nPadsRight : Nat
deriving DecidableEq, Repr

/-- `_prepare_prompt` for the single new request of the prefill step
(the source asserts `len(new_requests) == 1`).

The allocation loop `for pos_i in range(block_padding)` pops one block from the
pool whenever `pos_i % block_size == 0`, i.e. exactly `block_padding /
block_size` blocks (`block_padding` is a multiple of the block size), and maps
position `i` to slot `blocks[i / block_size] * block_size + i % block_size`;
it raises if the pool runs short, modelled by the length guard. -/
def preparePrompt (s : CBState) (rid : Nat) (promptTokenIds : List Nat)
    (maxTokens : Nat) : Option (CBState × PrefillOut) :=
  let isNewBatch := s.reqs.isEmpty
  let promptLen := promptTokenIds.length
  if prefillAligned s promptLen then
    let n := if isNewBatch then promptLen else s.tkv
    let blockPadding := cdiv n s.blockSize * s.blockSize
    let tkvNew := if isNewBatch then blockPadding else s.tkv
    let leftPadding := tkvNew - promptLen
    let nReserved := cdiv (tkvNew + maxTokens - 1) s.blockSize
    let numNewBlocks := blockPadding / s.blockSize
    if s.blockPool.length < numNewBlocks then none
    else
      let blocks := s.blockPool.take numNewBlocks
      let slots := (List.range blockPadding).map
        (fun i => blocks.getD (i / s.blockSize) 0 * s.blockSize + i % s.blockSize)
      let entry : ReqEntry :=
        { blocks := blocks
          leftPadding := leftPadding
          outputTokenIds := []
          promptTokenIds := promptTokenIds }
      some ({ s with
                tkv := tkvNew
                blockPool := s.blockPool.drop numNewBlocks
                reqs := aset s.reqs rid entry
                reserved := aset s.reserved rid nReserved },
            { slotMapping := slots
              inputLen := cbPadInputIdsLen tkvNew promptLen blockPadding
              nPadsRight := blockPadding - max tkvNew promptLen })
  else none

/-- One row of the decode batch (per resident request, before the
minimum-batch-size duplication). -/
structure DecodeRow where
  token : Nat
  pos : Nat
  blockRow : List Nat
  slotRow : List Nat
  leftPad : Nat
deriving DecidableEq, Repr

/-- Per-request block extension of `_prepare_decode`: a new block is popped
from the pool when `self.tkv // self.block_size + 1 > len(blocks)` (with the
pre-advance cursor) and appended to the request's block table. -/
def decodeStepBlocks (bs tkv : Nat) (blocks pool : List Nat) :
    Option (List Nat × List Nat) :=
  if tkv / bs + 1 > blocks.length then
    match pool with
    | [] => none
    | b :: ps => some (blocks ++ [b], ps)
  else some (blocks, pool)

/-- The per-request loop of `_prepare_decode`.  The source iterates
`input_batch.sorted_requests_ids`; both this loop and the output scatter in
`execute_model` use that same list, so it is modelled as the residency order of
the request map.  The slot of each request is
`block_table[-1][-1] * block_size + self.tkv % block_size`, computed before the
cursor is advanced. -/
def decodeLoop (bs tkv : Nat) (ncomp : Nat → Nat) :
    List (Nat × ReqEntry) → List Nat →
    Option (List (Nat × ReqEntry) × List Nat × List DecodeRow)
  | [], pool => some ([], pool, [])
  | (rid, r) :: rest, pool =>
    match decodeStepBlocks bs tkv r.blocks pool with
    | none => none
    | some (blocks2, pool2) =>
      match blocks2.getLast? with
      | none => none
      | some lastB =>
        match r.outputTokenIds.getLast? with
        | none => none
        | some tok =>
          match decodeLoop bs tkv ncomp rest pool2 with
          | none => none
          | some (rest2, pool3, rows) =>
            some ((rid, { r with blocks := blocks2 }) :: rest2, pool3,
              { token := tok
                pos := ncomp rid
                blockRow := blocks2
                slotRow := [lastB * bs + tkv % bs]
                leftPad := r.leftPadding } :: rows)

/-- The decode input tensors, as lists of rows. -/
structure DecodeOut where
  inputTokens : List (List Nat)
  inputPositions : List (List Nat)
  currentTkvMask : List Nat
  leftPaddedPromptMask : List Nat
  blockTable : List (List Nat)
  slotMapping : List (List Nat)
  indices : List Bool
deriving DecidableEq, Repr

/-- `_prepare_decode`.  `ncomp rid` stands for the externally supplied
`num_computed_tokens` of request `rid` in the scheduler output.  After the
per-request loop the cursor is advanced by one, `current_tkv_mask` is built
from the advanced cursor, and when a single request is resident every tensor
row is duplicated to reach the compiled minimum batch size of 2, with
`model.indices` extended by one `False` entry for the synthetic row. -/
def prepareDecode (s : CBState) (ncomp : Nat → Nat) :
    Option (CBState × DecodeOut) :=
  if s.reqs = [] then none
  else
    match decodeLoop s.blockSize s.tkv ncomp s.reqs s.blockPool with
    | none => none
    | some (reqs2, pool2, rows) =>
      let tkvNew := s.tkv + 1
      let inputTokens := rows.map (fun row => [row.token])
      let inputPositions := rows.map (fun row => [row.pos])
      let currentTkvMask := List.replicate rows.length tkvNew
      let leftPaddedPromptMask := rows.map (fun row => row.leftPad)
      let blockTable := rows.map (fun row => row.blockRow)
      let slotMapping := rows.map (fun row => row.slotRow)
      let out : DecodeOut :=
        if s.reqs.length = 1 then
          { inputTokens := inputTokens ++ inputTokens
            inputPositions := inputPositions ++ inputPositions
            currentTkvMask := currentTkvMask ++ currentTkvMask
            leftPaddedPromptMask := leftPaddedPromptMask ++ leftPaddedPromptMask
            blockTable := blockTable ++ blockTable
            slotMapping := slotMapping ++ slotMapping
            indices := List.replicate s.reqs.length true ++ [false] }
        else
          { inputTokens := inputTokens
            inputPositions := inputPositions
            currentTkvMask := currentTkvMask
            leftPaddedPromptMask := leftPaddedPromptMask
            blockTable := blockTable
            slotMapping := slotMapping
            indices := List.replicate s.reqs.length true }
      if out.inputTokens.length < 2 then none
      else some ({ s with tkv := tkvNew, reqs := reqs2, blockPool := pool2 }, out)

/-- The per-request body of `reduce_left_padding` (inside `if offset > 0`):
every resident request's `left_padding` drops by `offset`, the first
`n_padded_blocks` blocks of its table are popped and appended to the pool, and
its ledger entry is decremented once per freed block (`dict[key] -= 1` raises
for a missing key, modelled by `none`; the count is clamped at zero where
Python would go negative, a corner no analyzed claim evaluates). -/
def reduceReqsLoop (k offset : Nat) :
    List (Nat × ReqEntry) → List (Nat × Nat) → List Nat →
    Option (List (Nat × ReqEntry) × List (Nat × Nat) × List Nat)
  | [], resv, pool => some ([], resv, pool)
  | (rid, r) :: rest, resv, pool =>
    if k ≤ r.blocks.length then
      match alookup resv rid with
      | none => none
      | some cnt =>
        match reduceReqsLoop k offset rest (aset resv rid (cnt - k))
            (pool ++ r.blocks.take k) with
        | none => none
        | some (rest2, resv2, pool2) =>
          some ((rid,
            { r with
                blocks := r.blocks.drop k
                leftPadding := r.leftPadding - offset }) :: rest2, resv2, pool2)
    else none

/-- `reduce_left_padding`: with residents present, compute the minimum left
padding, free `min_left_pad // block_size` whole blocks from every resident
request when that is positive, and decrement the shared cursor by the freed
token count (`offset`); `self.tkv -= offset` also runs when `offset == 0`. -/
def reduceLeftPadding (s : CBState) : Option CBState :=
  if s.reqs = [] then some s
  else
    let minLeftPad := listMin (s.reqs.map (fun p => p.2.leftPadding))
    let nPaddedBlocks := minLeftPad / s.blockSize
    let offset := nPaddedBlocks * s.blockSize
    if 0 < offset then
      match reduceReqsLoop nPaddedBlocks offset s.reqs s.reserved s.blockPool with
      | none => none
      | some (reqs2, resv2, pool2) =>
        some { s with
                 tkv := s.tkv - offset
                 blockPool := pool2
                 reqs := reqs2
                 reserved := resv2 }
    else some { s with tkv := s.tkv - offset }

/-- Processing of one finished request id in `update_states`: the base class
pops `self.requests[req_id]` (a no-op for an unknown id) and the
continuous-batching override runs
`if blocks_to_free := self.req_ids2blocks.pop(req_id, None):` — the block-table
entry is popped unconditionally, but the ledger entry is popped and the blocks
appended to the pool only when the popped deque is truthy (non-empty); the
ledger pop has no default and raises for a missing key, modelled by `none`. -/
def freeFinishedOne (s : CBState) (rid : Nat) : Option CBState :=
  match alookup s.reqs rid with
  | none => some s
  | some r =>
    if r.blocks = [] then some { s with reqs := aremove s.reqs rid }
    else
      match alookup s.reserved rid with
      | none => none
      | some _ =>
        some { s with
                 reqs := aremove s.reqs rid
                 reserved := aremove s.reserved rid
                 blockPool := s.blockPool ++ r.blocks }

/-- The finished-request part of `update_states`, over
`scheduler_output.finished_req_ids`. -/
def updateStatesFinished (s : CBState) : List Nat → Option CBState
  | [] => some s
  | rid :: rest =>
    match freeFinishedOne s rid with
    | none => none
    | some s1 => updateStatesFinished s1 rest

/-- `req_state.output_token_ids.extend(row)`. -/
def appendTokens (r : ReqEntry) (row : List Nat) : ReqEntry :=
  { r with outputTokenIds := r.outputTokenIds ++ row }

/-- The sampled-token write-back of `execute_model` on a prefill step: the
request list is `scheduled_new_reqs` (the single new request), which receives
sampled row 0. -/
def appendSampledPrefill (s : CBState) (rid : Nat) (row : List Nat) : CBState :=
  { s with reqs := s.reqs.map (fun p => if p.1 = rid then (p.1, appendTokens p.2 row) else p) }

/-- The sampled-token write-back of `execute_model` on a decode step:
`for i, req in enumerate(sorted_requests_ids): requests[req].output_token_ids
.extend(sampled_ids[i])` — only the first `len(sorted_requests_ids)` sampled
rows are consumed; `sampled_ids[i]` raises when there are fewer rows than
resident requests, modelled by the length guard. -/
def appendSampledDecode (s : CBState) (rows : List (List Nat)) : Option CBState :=
  if s.reqs.length ≤ rows.length then
    some { s with reqs := (s.reqs.zip rows).map (fun pq => (pq.1.1, appendTokens pq.1.2 pq.2)) }
  else none

/-- A continuous-batching `execute_model` call whose scheduler output has zero
total scheduled tokens: `update_states` runs, then the base class returns
`EMPTY_MODEL_RUNNER_OUTPUT` (no request ids) before any batch is composed, and
the continuous-batching wrapper reports `tkv = 0` (the guard
`total_num_scheduled_tokens > 0` fails) together with the current
`get_n_free_blocks()`. -/
structure CBRunnerOutput where
  reqIds : List Nat
  tkv : Nat
  nFreeBlocks : Int
deriving DecidableEq, Repr

def executeModelNoWork (s : CBState) (finished : List Nat) :
    Option (CBState × CBRunnerOutput) :=
  match updateStatesFinished s finished with
  | none => none
  | some s1 => some (s1, { reqIds := [], tkv := 0, nFreeBlocks := getNFreeBlocks s1 })

/-- One observable step of the runner.  Prefill and decode steps include the
sampled-token write-back of `execute_model`; `reduce` is the left-padding
reclamation run by `prepare_model_input` before composing a step; `finished`
is the cleanup part of `update_states`.  A prefill carries a fresh request id
and a non-empty prompt (request ids are unique while resident and prompts are
non-empty in vLLM). -/
inductive Step : CBState → CBState → Prop where
  | prefill (s : CBState) (rid : Nat) (toks : List Nat) (maxT : Nat)
      (row : List Nat) (s1 : CBState) (out : PrefillOut) :
      alookup s.reqs rid = none →
      toks ≠ [] →
      preparePrompt s rid toks maxT = some (s1, out) →
      Step s (appendSampledPrefill s1 rid row)
  | decode (s : CBState) (ncomp : Nat → Nat) (rows : List (List Nat))
      (s1 s2 : CBState) (out : DecodeOut) :
      prepareDecode s ncomp = some (s1, out) →
      appendSampledDecode s1 rows = some s2 →
      Step s s2
  | reduce (s s1 : CBState) :
      reduceLeftPadding s = some s1 →
      Step s s1
  | finished (s : CBState) (fin : List Nat) (s1 : CBState) :
      updateStatesFinished s fin = some s1 →
      Step s s1

/-- States reachable from a fresh pool by any interleaving of runner steps. -/
inductive Reachable : CBState → Prop where
  | init (numBlocks blockSize : Nat) : 0 < blockSize →
      Reachable (initState numBlocks blockSize)
  | step (s s1 : CBState) : Reachable s → Step s s1 → Reachable s1

/-- The bookkeeping invariant maintained by every runner step: the pool and the
resident block tables partition `range n_blocks`; request-map keys are unique
and the ledger is keyed exactly like the request map; and every resident
request holds exactly `ceil(tkv / block_size)` blocks while its prompt is
non-empty and its left padding keeps the prompt inside the shared timeline. -/
def RunnerInv (s : CBState) : Prop :=
  0 < s.blockSize ∧
  List.Perm (s.blockPool ++ heldBlocks s) (List.range s.nBlocks) ∧
  (s.reqs.map Prod.fst).Nodup ∧
  s.reserved.map Prod.fst = s.reqs.map Prod.fst ∧
  ∀ p ∈ s.reqs, p.2.blocks.length = cdiv s.tkv s.blockSize ∧
    p.2.promptTokenIds ≠ [] ∧
    p.2.leftPadding + p.2.promptTokenIds.length ≤ s.tkv

/-- A 64-token prompt used by the concrete scenarios below. -/
def prompt64 : List Nat := List.replicate 64 5

/-- State after `_prepare_prompt` of request 0 (prompt length 64,
`max_tokens = 10`) on a fresh runner with 4 blocks of size 64. -/
def sPre1 : CBState :=
  { nBlocks := 4
    blockSize := 64
    tkv := 64
    blockPool := [1, 2, 3]
    reqs := [(0, ⟨[0], 0, [], prompt64⟩)]
    reserved := [(0, 2)] }

/-- Prefill output produced together with `sPre1`. -/
def outPre1 : PrefillOut :=
  { slotMapping := List.range 64, inputLen := 64, nPadsRight := 0 }

/-- `sPre1` after the prefill write-back of sampled token 7: the state at the
start of the first decode step. -/
def cexState1 : CBState :=
  { nBlocks := 4
    blockSize := 64
    tkv := 64
    blockPool := [1, 2, 3]
    reqs := [(0, ⟨[0], 0, [7], prompt64⟩)]
    reserved := [(0, 2)] }

/-- State after `_prepare_decode` on `cexState1`: the cursor advanced to 65 and
block 1 was allocated when the step crossed into a fresh block. -/
def sDec1 : CBState :=
  { nBlocks := 4
    blockSize := 64
    tkv := 65
    blockPool := [2, 3]
    reqs := [(0, ⟨[0, 1], 0, [7], prompt64⟩)]
    reserved := [(0, 2)] }

/-- Decode output produced together with `sDec1` (single resident request, so
every row is duplicated to batch size 2). -/
def outDec1 : DecodeOut :=
  { inputTokens := [[7], [7]]
    inputPositions := [[64], [64]]
    currentTkvMask := [65, 65]
    leftPaddedPromptMask := [0, 0]
    blockTable := [[0, 1], [0, 1]]
    slotMapping := [[64], [64]]
    indices := [true, false] }

/-- `sDec1` after the decode write-back of sampled row `[8]` (the duplicate
row `[9]` is discarded). -/
def cexState2 : CBState :=
  { nBlocks := 4
    blockSize := 64
    tkv := 65
    blockPool := [2, 3]
    reqs := [(0, ⟨[0, 1], 0, [7, 8], prompt64⟩)]
    reserved := [(0, 2)] }

/-- A small state exercising a non-trivial left-padding reclamation
(block size 2, both residents have at least one whole block of left padding). -/
def rState : CBState :=
  { nBlocks := 8
    blockSize := 2
    tkv := 6
    blockPool := [6, 7]
    reqs := [(0, ⟨[0, 1, 2], 5, [9], [1]⟩), (1, ⟨[3, 4, 5], 3, [9], [1, 1, 1]⟩)]
    reserved := [(0, 4), (1, 4)] }

/-! ### Arithmetic facts about `cdiv` -/

theorem cdiv_eq (b t : Nat) (hb : 0 < b) :
    cdiv t b = t / b + if t % b = 0 then 0 else 1 := by
  have hqr : b * (t / b) + t % b = t := Nat.div_add_mod t b
  have hlt : t % b < b := Nat.mod_lt t hb
  unfold cdiv
  rcases Nat.eq_zero_or_pos (t % b) with hr | hr
  · have h1 : t + b - 1 = b * (t / b) + (b - 1) := by omega
    rw [h1, Nat.mul_add_div hb, Nat.div_eq_of_lt (show b - 1 < b by omega)]
    simp [hr]
  · have hne : ¬ t % b = 0 := by omega
    have hx : b * (t / b + 1) = b * (t / b) + b := by ring
    have h1 : t + b - 1 = b * (t / b + 1) + (t % b - 1) := by omega
    rw [h1, Nat.mul_add_div hb, Nat.div_eq_of_lt (show t % b - 1 < b by omega)]
    simp [hne]

theorem cdiv_mul_self (b m : Nat) (hb : 0 < b) : cdiv (m * b) b = m := by
  rw [cdiv_eq b (m * b) hb, Nat.mul_mod_left, Nat.mul_div_cancel _ hb]
  simp

theorem le_cdiv_mul (b t : Nat) (hb : 0 < b) : t ≤ cdiv t b * b := by
  have hqr : b * (t / b) + t % b = t := Nat.div_add_mod t b
  have hlt : t % b < b := Nat.mod_lt t hb
  rw [cdiv_eq b t hb]
  have hx : (t / b + 1) * b = b * (t / b) + b := by ring
  have hy : (t / b + 0) * b = b * (t / b) := by ring
  rcases Nat.eq_zero_or_pos (t % b) with hr | hr
  · rw [if_pos hr]
    omega
  · have hne : ¬ t % b = 0 := by omega
    rw [if_neg hne]
    omega

theorem cdiv_succ_alloc (b tkv : Nat) (hb : 0 < b) :
    (if tkv / b + 1 > cdiv tkv b then cdiv tkv b + 1 else cdiv tkv b)
      = cdiv (tkv + 1) b := by
  have hqr : b * (tkv / b) + tkv % b = tkv := Nat.div_add_mod tkv b
  have hlt : tkv % b < b := Nat.mod_lt tkv hb
  have hxq : b * (tkv / b + 1) = b * (tkv / b) + b := by ring
  rcases Nat.eq_zero_or_pos (tkv % b) with hr | hr
  · have hc : cdiv tkv b = tkv / b := by
      unfold cdiv
      have h1 : tkv + b - 1 = b * (tkv / b) + (b - 1) := by omega
      rw [h1, Nat.mul_add_div hb, Nat.div_eq_of_lt (show b - 1 < b by omega)]
      omega
    have hc1 : cdiv (tkv + 1) b = tkv / b + 1 := by
      unfold cdiv
      have h1 : tkv + 1 + b - 1 = b * (tkv / b + 1) + 0 := by omega
      rw [h1, Nat.mul_add_div hb, Nat.div_eq_of_lt hb]
    rw [hc, hc1, if_pos (by omega)]
  · have hne : tkv % b - 1 < b := by omega
    have hc : cdiv tkv b = tkv / b + 1 := by
      unfold cdiv
      have h1 : tkv + b - 1 = b * (tkv / b + 1) + (tkv % b - 1) := by omega
      rw [h1, Nat.mul_add_div hb, Nat.div_eq_of_lt hne]
    have hc1 : cdiv (tkv + 1) b = tkv / b + 1 := by
      unfold cdiv
      have h1 : tkv + 1 + b - 1 = b * (tkv / b + 1) + tkv % b := by omega
      rw [h1, Nat.mul_add_div hb, Nat.div_eq_of_lt hlt]
    rw [hc, hc1, if_neg (by omega)]

theorem cdiv_zero_blockSize (t : Nat) : cdiv t 0 = 0 := by
  simp [cdiv]

theorem cdiv_sub_mul (b t k : Nat) (hb : 0 < b) (h : k * b ≤ t) :
    cdiv (t - k * b) b = cdiv t b - k := by
  unfold cdiv
  have hkb : b * k = k * b := Nat.mul_comm b k
  have h1 : t - k * b + b - 1 = t + b - 1 - b * k := by omega
  rw [h1, Nat.sub_mul_div _ _ _ (show b * k ≤ t + b - 1 by omega)]

theorem cdiv_pred_div (b t : Nat) (hb : 0 < b) (ht : 1 ≤ t) :
    cdiv t b = (t - 1) / b + 1 := by
  unfold cdiv
  have h1 : t + b - 1 = t - 1 + b := by omega
  rw [h1, Nat.add_div_right _ hb]

theorem cdiv_pos (b t : Nat) (hb : 0 < b) (ht : 1 ≤ t) : 1 ≤ cdiv t b := by
  rw [cdiv_pred_div b t hb ht]
  exact Nat.succ_le_succ (Nat.zero_le _)

/-! ### Association-list facts -/

theorem alookup_eq_none {α : Type} (l : List (Nat × α)) (key : Nat) :
    alookup l key = none ↔ key ∉ l.map Prod.fst := by
  induction l with
  | nil => simp [alookup]
  | cons p rest ih =>
    obtain ⟨k, v⟩ := p
    by_cases hk : k = key <;> simp [alookup, hk, ih, Ne.symm]

theorem aset_fresh {α : Type} (l : List (Nat × α)) (key : Nat) (v : α)
    (h : key ∉ l.map Prod.fst) : aset l key v = l ++ [(key, v)] := by
  induction l with
  | nil => simp [aset]
  | cons p rest ih =>
    obtain ⟨k, w⟩ := p
    simp only [List.map_cons, List.mem_cons] at h
    push_neg at h
    simp [aset, Ne.symm h.1, ih h.2]

theorem alookup_aset_self {α : Type} (l : List (Nat × α)) (key : Nat) (v : α) :
    alookup (aset l key v) key = some v := by
  induction l with
  | nil => simp [aset, alookup]
  | cons p rest ih =>
    obtain ⟨k, w⟩ := p
    by_cases hk : k = key <;> simp [aset, hk, alookup, ih]

theorem aset_keys_of_mem {α : Type} (l : List (Nat × α)) (key : Nat) (v : α)
    (h : key ∈ l.map Prod.fst) : (aset l key v).map Prod.fst = l.map Prod.fst := by
  induction l with
  | nil => simp at h
  | cons p rest ih =>
    obtain ⟨k, w⟩ := p
    by_cases hk : k = key
    · simp [aset, hk]
    · simp only [List.map_cons, List.mem_cons] at h
      rcases h with h | h
    
      · exact absurd h.symm hk
      · simp [aset, hk, ih h]

theorem aremove_keys {α : Type} (l : List (Nat × α)) (key : Nat) :
    (aremove l key).map Prod.fst = (l.map Prod.fst).erase key := by
  induction l with
  | nil => simp [aremove]
  | cons p rest ih =>
    obtain ⟨k, w⟩ := p
    by_cases hk : k = key
    · simp [aremove, hk, List.erase_cons_head]
    · simp [aremove, hk, List.erase_cons, ih]

theorem alookup_aremove_ne {α : Type} (l : List (Nat × α)) (key k2 : Nat)
    (h : key ≠ k2) : alookup (aremove l key) k2 = alookup l k2 := by
  induction l with
  | nil => simp [aremove]
  | cons p rest ih =>
    obtain ⟨k, w⟩ := p
    by_cases hk : k = key
    · subst hk
      simp [aremove, alookup, h, ih]
    · by_cases hk2 : k = k2
      · have hne : ¬ (k2 = key) := fun hh => h hh.symm
        subst hk2
        simp [aremove, alookup, hk, hne]
      · simp [aremove, alookup, hk, hk2, ih]

theorem alookup_aremove_self {α : Type} (l : List (Nat × α)) (key : Nat)
    (hnd : (l.map Prod.fst).Nodup) : alookup (aremove l key) key = none := by
  induction l with
  | nil => simp [aremove, alookup]
  | cons p rest ih =>
    obtain ⟨k, w⟩ := p
    simp only [List.map_cons, List.nodup_cons] at hnd
    by_cases hk : k = key
    · subst hk
      simp only [aremove, if_pos rfl]
      rw [alookup_eq_none]
      exact hnd.1
    · simp [aremove, alookup, hk, ih hnd.2]

theorem alookup_none_aremove {α : Type} (l : List (Nat × α)) (key k2 : Nat)
    (h : alookup l k2 = none) : alookup (aremove l key) k2 = none := by
  induction l with
  | nil => simp [aremove, alookup]
  | cons p rest ih =>
    obtain ⟨k, w⟩ := p
    simp only [alookup] at h
    by_cases hk2 : k = k2
    · simp [hk2] at h
    · simp only [hk2, if_false] at h
      by_cases hk : k = key
      · simpa [aremove, hk] using h
      · simp [aremove, alookup, hk, hk2, ih h]

theorem flatten_aremove_perm (l : List (Nat × ReqEntry)) (key : Nat) (r : ReqEntry)
    (h : alookup l key = some r) :
    List.Perm (((aremove l key).map (fun p => p.2.blocks)).flatten ++ r.blocks)
      ((l.map (fun p => p.2.blocks)).flatten) := by
  induction l with
  | nil => simp [alookup] at h
  | cons p rest ih =>
    obtain ⟨k, w⟩ := p
    by_cases hk : k = key
    · have hw : alookup ((k, w) :: rest) key = some w := by
        simp only [alookup]
        rw [if_pos hk]
      rw [hw] at h
      injection h with h2
      subst h2
      simp only [aremove, if_pos hk, List.map_cons, List.flatten_cons]
      exact List.perm_append_comm
    · simp only [alookup, hk, if_false] at h
      simp only [aremove, hk, if_false, List.map_cons, List.flatten_cons]
      rw [List.append_assoc]
      exact List.Perm.append_left _ (ih h)

/-! ### Facts about `listMin` -/

theorem listMin_le (l : List Nat) (x : Nat) (h : x ∈ l) : listMin l ≤ x := by
  induction l with
  | nil => simp at h
  | cons a rest ih =>
    cases rest with
    | nil =>
      simp only [List.mem_cons, List.not_mem_nil, or_false] at h
      simp [listMin, h]
    | cons b rest2 =>
      simp only [List.mem_cons] at h
      simp only [listMin]
      rcases h with h | h
      · subst h
        exact Nat.min_le_left _ _
      · have hle := ih (by simpa using h)
        have h2 : min a (listMin (b :: rest2)) ≤ listMin (b :: rest2) :=
          Nat.min_le_right _ _
        omega

theorem listMin_mem (l : List Nat) (h : l ≠ []) : listMin l ∈ l := by
  induction l with
  | nil => exact absurd rfl h
  | cons a rest ih =>
    cases rest with
    | nil => simp [listMin]
    | cons b rest2 =>
      simp only [listMin]
      rcases Nat.le_total a (listMin (b :: rest2)) with hab | hab
      · rw [Nat.min_eq_left hab]
        simp
      · rw [Nat.min_eq_right hab]
        have hm := ih (by simp)
        simp only [List.mem_cons] at hm ⊢
        tauto

theorem listMin_map_sub (l : List Nat) (c : Nat) :
    listMin (l.map (fun x => x - c)) = listMin l - c := by
  induction l with
  | nil => simp [listMin]
  | cons a rest ih =>
    cases rest with
    | nil => simp [listMin]
    | cons b rest2 =>
      simp only [List.map_cons] at ih ⊢
      simp only [listMin]
      rw [ih]
      omega

/-! ### Properties of the decode loop -/

theorem decodeStepBlocks_spec (bs tkv : Nat) (blocks pool blocks2 pool2 : List Nat)
    (h : decodeStepBlocks bs tkv blocks pool = some (blocks2, pool2)) :
    if tkv / bs + 1 > blocks.length
    then ∃ b ps, pool = b :: ps ∧ blocks2 = blocks ++ [b] ∧ pool2 = ps
    else blocks2 = blocks ∧ pool2 = pool := by
  unfold decodeStepBlocks at h
  split at h
  · rename_i hcond
    cases pool with
    | nil => simp at h
    | cons b ps =>
      simp only [Option.some.injEq, Prod.mk.injEq] at h
      rw [if_pos hcond]
      exact ⟨b, ps, rfl, h.1.symm, h.2.symm⟩
  · rename_i hcond
    rw [if_neg hcond]
    simp only [Option.some.injEq, Prod.mk.injEq] at h
    exact ⟨h.1.symm, h.2.symm⟩

theorem decodeLoop_spec (bs tkv : Nat) (ncomp : Nat → Nat)
    (reqs : List (Nat × ReqEntry)) :
    ∀ (pool : List Nat) reqs2 pool2 rows,
      decodeLoop bs tkv ncomp reqs pool = some (reqs2, pool2, rows) →
      reqs2.length = reqs.length ∧ rows.length = reqs.length ∧
      reqs2.map Prod.fst = reqs.map Prod.fst ∧
      List.Perm (pool2 ++ (reqs2.map (fun p => p.2.blocks)).flatten)
        (pool ++ (reqs.map (fun p => p.2.blocks)).flatten) ∧
      ∀ i (hi : i < reqs.length) (hi2 : i < reqs2.length) (hr : i < rows.length),
        (reqs2.get ⟨i, hi2⟩).1 = (reqs.get ⟨i, hi⟩).1 ∧
        (reqs2.get ⟨i, hi2⟩).2.leftPadding = (reqs.get ⟨i, hi⟩).2.leftPadding ∧
        (reqs2.get ⟨i, hi2⟩).2.outputTokenIds = (reqs.get ⟨i, hi⟩).2.outputTokenIds ∧
        (reqs2.get ⟨i, hi2⟩).2.promptTokenIds = (reqs.get ⟨i, hi⟩).2.promptTokenIds ∧
        (if tkv / bs + 1 > (reqs.get ⟨i, hi⟩).2.blocks.length
         then ∃ b, (reqs2.get ⟨i, hi2⟩).2.blocks = (reqs.get ⟨i, hi⟩).2.blocks ++ [b]
         else (reqs2.get ⟨i, hi2⟩).2.blocks = (reqs.get ⟨i, hi⟩).2.blocks) ∧
        ∃ lastB, (reqs2.get ⟨i, hi2⟩).2.blocks.getLast? = some lastB ∧
          (rows.get ⟨i, hr⟩).slotRow = [lastB * bs + tkv % bs] ∧
          (rows.get ⟨i, hr⟩).blockRow = (reqs2.get ⟨i, hi2⟩).2.blocks ∧
          (rows.get ⟨i, hr⟩).leftPad = (reqs.get ⟨i, hi⟩).2.leftPadding := by
  induction reqs with
  | nil =>
    intro pool reqs2 pool2 rows h
    simp only [decodeLoop, Option.some.injEq, Prod.mk.injEq] at h
    obtain ⟨h1, h2, h3⟩ := h
    subst h1; subst h2; subst h3
    refine ⟨rfl, rfl, rfl, List.Perm.refl _, ?_⟩
    intro i hi
    simp at hi
  | cons p rest ih =>
    obtain ⟨rid, r⟩ := p
    intro pool reqs2 pool2 rows h
    simp only [decodeLoop] at h
    cases hds : decodeStepBlocks bs tkv r.blocks pool with
    | none => rw [hds] at h; simp at h
    | some bp =>
      obtain ⟨blocks2, pool2a⟩ := bp
      rw [hds] at h
      dsimp only at h
      cases hgl : blocks2.getLast? with
      | none => rw [hgl] at h; simp at h
      | some lastB =>
        rw [hgl] at h
        dsimp only at h
        cases hot : r.outputTokenIds.getLast? with
        | none => rw [hot] at h; simp at h
        | some tok =>
          rw [hot] at h
          dsimp only at h
          cases hrec : decodeLoop bs tkv ncomp rest pool2a with
          | none => rw [hrec] at h; simp at h
          | some trip =>
            obtain ⟨rest2, pool3, rows0⟩ := trip
            rw [hrec] at h
            dsimp only at h
            simp only [Option.some.injEq, Prod.mk.injEq] at h
            obtain ⟨h1, h2, h3⟩ := h
            obtain ⟨hlen2, hlenr, hkeys, hperm, hpt⟩ := ih pool2a rest2 pool3 rows0 hrec
            have hds2 := decodeStepBlocks_spec bs tkv r.blocks pool blocks2 pool2a hds
            subst h1; subst h2; subst h3
            refine ⟨by simp [hlen2], by simp [hlenr], by simp [hkeys], ?_, ?_⟩
            · by_cases hcond : tkv / bs + 1 > r.blocks.length
              · rw [if_pos hcond] at hds2
                obtain ⟨b, ps, hpool, hb2, hp2⟩ := hds2
                subst hpool; subst hb2; subst hp2
                rw [List.perm_iff_count]
                intro a
                have hIH := (List.perm_iff_count.mp hperm) a
                simp only [List.count_append, List.map_cons, List.flatten_cons,
                  List.count_cons] at hIH ⊢
                by_cases hab : a = b <;> simp [hab] at hIH ⊢ <;> omega
              · rw [if_neg hcond] at hds2
                obtain ⟨hb2, hp2⟩ := hds2
                subst hb2; subst hp2
                rw [List.perm_iff_count]
                intro a
                have hIH := (List.perm_iff_count.mp hperm) a
                simp only [List.count_append, List.map_cons, List.flatten_cons] at hIH ⊢
                omega
            · intro i hi hi2 hr
              cases i with
              | zero =>
                have hblocks : if tkv / bs + 1 > r.blocks.length
                    then ∃ b, blocks2 = r.blocks ++ [b] else blocks2 = r.blocks := by
                  by_cases hcond : tkv / bs + 1 > r.blocks.length
                  · rw [if_pos hcond] at hds2 ⊢
                    obtain ⟨b, ps, hpool, hb2, hp2⟩ := hds2
                    exact ⟨b, hb2⟩
                  · rw [if_neg hcond] at hds2 ⊢
                    exact hds2.1
                exact ⟨rfl, rfl, rfl, rfl, hblocks, lastB, hgl, rfl, rfl, rfl⟩
              | succ j =>
                simp only [List.length_cons, Nat.succ_lt_succ_iff] at hi hi2 hr
                exact hpt j hi hi2 hr

theorem alookup_mem_keys {α : Type} (l : List (Nat × α)) (key : Nat) (v : α)
    (h : alookup l key = some v) : key ∈ l.map Prod.fst := by
  by_contra hmem
  rw [← alookup_eq_none] at hmem
  rw [hmem] at h
  exact Option.noConfusion h

/-! ### Properties of the left-padding reclamation loop -/

theorem reduceReqsLoop_spec (k offset : Nat) (reqs : List (Nat × ReqEntry)) :
    ∀ (resv : List (Nat × Nat)) (pool : List Nat) reqs2 resv2 pool2,
      reduceReqsLoop k offset reqs resv pool = some (reqs2, resv2, pool2) →
      reqs2 = reqs.map (fun p => (p.1,
        { p.2 with blocks := p.2.blocks.drop k,
                   leftPadding := p.2.leftPadding - offset })) ∧
      resv2.map Prod.fst = resv.map Prod.fst ∧
      pool2.length = pool.length + k * reqs.length ∧
      List.Perm (pool2 ++ (reqs2.map (fun p => p.2.blocks)).flatten)
        (pool ++ (reqs.map (fun p => p.2.blocks)).flatten) ∧
      ∀ p ∈ reqs, k ≤ p.2.blocks.length := by
  induction reqs with
  | nil =>
    intro resv pool reqs2 resv2 pool2 h
    simp only [reduceReqsLoop, Option.some.injEq, Prod.mk.injEq] at h
    obtain ⟨h1, h2, h3⟩ := h
    subst h1; subst h2; subst h3
    refine ⟨by simp, rfl, by simp, List.Perm.refl _, by simp⟩
  | cons p rest ih =>
    obtain ⟨rid, r⟩ := p
    intro resv pool reqs2 resv2 pool2 h
    simp only [reduceReqsLoop] at h
    split at h
    · rename_i hkle
      cases hlook : alookup resv rid with
      | none => rw [hlook] at h; simp at h
      | some cnt =>
        rw [hlook] at h
        dsimp only at h
        cases hrec : reduceReqsLoop k offset rest (aset resv rid (cnt - k))
            (pool ++ r.blocks.take k) with
        | none => rw [hrec] at h; simp at h
        | some trip =>
          obtain ⟨rest2, resv3, pool3⟩ := trip
          rw [hrec] at h
          dsimp only at h
          simp only [Option.some.injEq, Prod.mk.injEq] at h
          obtain ⟨h1, h2, h3⟩ := h
          obtain ⟨ihmap, ihkeys, ihlen, ihperm, ihk⟩ :=
            ih (aset resv rid (cnt - k)) (pool ++ r.blocks.take k) rest2 resv3 pool3 hrec
          subst h1; subst h2; subst h3
          have htake : (r.blocks.take k).length = k := by
            rw [List.length_take]
            omega
          have htd : r.blocks.take k ++ r.blocks.drop k = r.blocks :=
            List.take_append_drop k r.blocks
          refine ⟨by rw [ihmap]; simp, ?_, ?_, ?_, ?_⟩
          · rw [ihkeys, aset_keys_of_mem resv rid (cnt - k)
              (alookup_mem_keys resv rid cnt hlook)]
          · simp only [List.length_append, htake] at ihlen
            simp only [List.length_cons, ihlen]
            ring
          · rw [List.perm_iff_count]
            intro a
            have hIH := (List.perm_iff_count.mp ihperm) a
            have hcnt : r.blocks.count a
                = (r.blocks.take k).count a + (r.blocks.drop k).count a := by
              rw [← List.count_append, htd]
            simp only [List.count_append, List.map_cons, List.flatten_cons] at hIH ⊢
            omega
          · intro q hq
            rcases List.mem_cons.mp hq with hq | hq
            · subst hq
              exact hkle
            · exact ihk q hq
    · exact absurd h (by simp)

theorem map_entry_id (l : List (Nat × ReqEntry)) :
    l.map (fun p => (p.1,
      { p.2 with blocks := p.2.blocks, leftPadding := p.2.leftPadding })) = l := by
  induction l with
  | nil => rfl
  | cons p rest ih =>
    obtain ⟨a, b⟩ := p
    exact congrArg (List.cons _) ih

theorem reduceLeftPadding_offset_zero (s : CBState)
    (h0 : (listMin (s.reqs.map (fun p => p.2.leftPadding)) / s.blockSize)
        * s.blockSize = 0) :
    reduceLeftPadding s = some s := by
  unfold reduceLeftPadding
  by_cases hreqs : s.reqs = []
  · rw [if_pos hreqs]
  · rw [if_neg hreqs]
    dsimp only
    rw [if_neg (by omega), h0]
    rfl

theorem reduceLeftPadding_spec (s s2 : CBState)
    (h : reduceLeftPadding s = some s2) :
    s2.nBlocks = s.nBlocks ∧ s2.blockSize = s.blockSize ∧
    s2.tkv = s.tkv -
      (listMin (s.reqs.map (fun p => p.2.leftPadding)) / s.blockSize) * s.blockSize ∧
    s2.reserved.map Prod.fst = s.reserved.map Prod.fst ∧
    s2.reqs = s.reqs.map (fun p => (p.1, { p.2 with
        blocks := p.2.blocks.drop
          (listMin (s.reqs.map (fun q => q.2.leftPadding)) / s.blockSize),
        leftPadding := p.2.leftPadding -
          (listMin (s.reqs.map (fun q => q.2.leftPadding)) / s.blockSize)
            * s.blockSize })) ∧
    s2.blockPool.length = s.blockPool.length +
      (listMin (s.reqs.map (fun p => p.2.leftPadding)) / s.blockSize) * s.reqs.length ∧
    List.Perm (s2.blockPool ++ heldBlocks s2) (s.blockPool ++ heldBlocks s) ∧
    (s.reqs ≠ [] →
      ∀ p ∈ s.reqs,
        listMin (s.reqs.map (fun q => q.2.leftPadding)) / s.blockSize
          ≤ p.2.blocks.length) := by
  have hmap0 : ∀ (l : List (Nat × ReqEntry)),
      l.map (fun p => (p.1,
        { p.2 with
            blocks := p.2.blocks.drop 0
            leftPadding := p.2.leftPadding - 0 })) = l := fun l => map_entry_id l
  unfold reduceLeftPadding at h
  by_cases hreqs : s.reqs = []
  · rw [if_pos hreqs] at h
    injection h with h
    subst h
    refine ⟨rfl, rfl, ?_, rfl, ?_, ?_, List.Perm.refl _, fun hne => absurd hreqs hne⟩
    · rw [hreqs]
      simp [listMin]
    · rw [hreqs]
      simp
    · rw [hreqs]
      simp [listMin]
  · rw [if_neg hreqs] at h
    dsimp only at h
    by_cases hoff : 0 <
        listMin (List.map (fun p => p.2.leftPadding) s.reqs) / s.blockSize * s.blockSize
    · rw [if_pos hoff] at h
      cases hloop : reduceReqsLoop
          (listMin (List.map (fun p => p.2.leftPadding) s.reqs) / s.blockSize)
          (listMin (List.map (fun p => p.2.leftPadding) s.reqs) / s.blockSize
            * s.blockSize) s.reqs s.reserved s.blockPool with
      | none => rw [hloop] at h; exact absurd h (by simp)
      | some trip =>
        obtain ⟨reqs2, resv2, pool2⟩ := trip
        rw [hloop] at h
        dsimp only at h
        injection h with h
        subst h
        obtain ⟨hmap, hkeys, hlen, hperm, hk⟩ :=
          reduceReqsLoop_spec _ _ s.reqs s.reserved s.blockPool reqs2 resv2 pool2 hloop
        refine ⟨rfl, rfl, rfl, hkeys, hmap, hlen, ?_, fun _ => hk⟩
        simpa [heldBlocks] using hperm
    · rw [if_neg hoff] at h
      injection h with h
      subst h
      have h0 : listMin (List.map (fun p => p.2.leftPadding) s.reqs) / s.blockSize
          * s.blockSize = 0 := by omega
      have hk0 : listMin (List.map (fun p => p.2.leftPadding) s.reqs) / s.blockSize = 0
          ∨ s.blockSize = 0 := by
        rcases Nat.mul_eq_zero.mp h0 with hc | hc
        · exact Or.inl hc
        · exact Or.inr hc
      rcases hk0 with hk0 | hk0
      · refine ⟨rfl, rfl, rfl, rfl, ?_, by rw [hk0]; simp, ?_, ?_⟩
        · rw [hk0]
          simp only [Nat.zero_mul]
          exact (hmap0 s.reqs).symm
        · simp [heldBlocks, List.Perm.refl]
        · intro hne p hp
          rw [hk0]
          exact Nat.zero_le _
      · have hkz : listMin (List.map (fun p => p.2.leftPadding) s.reqs) / s.blockSize = 0 := by
          rw [hk0]
          simp
        refine ⟨rfl, rfl, rfl, rfl, ?_, by rw [hkz]; simp, ?_, ?_⟩
        · rw [hkz]
          simp only [Nat.zero_mul]
          exact (hmap0 s.reqs).symm
        · simp [heldBlocks, List.Perm.refl]
        · intro hne p hp
          rw [hkz]
          exact Nat.zero_le _

/-! ### Properties of finished-request processing -/

theorem alookup_mem {α : Type} (l : List (Nat × α)) (key : Nat) (v : α)
    (h : alookup l key = some v) : (key, v) ∈ l := by
  induction l with
  | nil => simp [alookup] at h
  | cons p rest ih =>
    obtain ⟨k, w⟩ := p
    simp only [alookup] at h
    by_cases hk : k = key
    · rw [if_pos hk] at h
      injection h with h
      subst hk; subst h
      simp
    · rw [if_neg hk] at h
      simp [ih h]

theorem aremove_subset {α : Type} (l : List (Nat × α)) (key : Nat) (p : Nat × α)
    (h : p ∈ aremove l key) : p ∈ l := by
  induction l with
  | nil => simp [aremove] at h
  | cons q rest ih =>
    obtain ⟨k, w⟩ := q
    simp only [aremove] at h
    by_cases hk : k = key
    · rw [if_pos hk] at h
      simp [h]
    · rw [if_neg hk] at h
      rcases List.mem_cons.mp h with h | h
      · simp [h]
      · simp [ih h]

theorem alookup_isSome_of_mem {α : Type} (l : List (Nat × α)) (key : Nat)
    (h : key ∈ l.map Prod.fst) : ∃ v, alookup l key = some v := by
  cases hl : alookup l key with
  | none => exact absurd ((alookup_eq_none l key).mp hl) (by simp [h])
  | some v => exact ⟨v, rfl⟩

theorem freeFinishedOne_not_resident (s : CBState) (rid : Nat)
    (h : alookup s.reqs rid = none) : freeFinishedOne s rid = some s := by
  unfold freeFinishedOne
  rw [h]

theorem freeFinishedOne_resident (s : CBState) (rid : Nat) (r : ReqEntry)
    (hres : alookup s.reqs rid = some r) (hblocks : r.blocks ≠ [])
    (hledger : rid ∈ s.reserved.map Prod.fst) :
    freeFinishedOne s rid = some
      { s with reqs := aremove s.reqs rid
               reserved := aremove s.reserved rid
               blockPool := s.blockPool ++ r.blocks } := by
  obtain ⟨v, hv⟩ := alookup_isSome_of_mem s.reserved rid hledger
  unfold freeFinishedOne
  rw [hres]
  dsimp only
  rw [if_neg hblocks, hv]

theorem freeFinishedOne_mono (s s1 : CBState) (rid : Nat)
    (h : freeFinishedOne s rid = some s1) :
    (∀ b, b ∈ s.blockPool → b ∈ s1.blockPool) ∧
    (∀ k2, alookup s.reqs k2 = none → alookup s1.reqs k2 = none) ∧
    (∀ k2, alookup s.reserved k2 = none → alookup s1.reserved k2 = none) := by
  unfold freeFinishedOne at h
  cases hres : alookup s.reqs rid with
  | none =>
    rw [hres] at h
    injection h with h
    subst h
    exact ⟨fun b hb => hb, fun k2 hk => hk, fun k2 hk => hk⟩
  | some r =>
    rw [hres] at h
    dsimp only at h
    by_cases hb : r.blocks = []
    · rw [if_pos hb] at h
      injection h with h
      subst h
      exact ⟨fun b hb2 => hb2, fun k2 hk => alookup_none_aremove _ _ _ hk,
        fun k2 hk => hk⟩
    · rw [if_neg hb] at h
      cases hres2 : alookup s.reserved rid with
      | none => rw [hres2] at h; exact absurd h (by simp)
      | some v =>
        rw [hres2] at h
        injection h with h
        subst h
        exact ⟨fun b hb2 => by simp [hb2], fun k2 hk => alookup_none_aremove _ _ _ hk,
          fun k2 hk => alookup_none_aremove _ _ _ hk⟩

theorem updateStatesFinished_mono (fin : List Nat) :
    ∀ (s s1 : CBState), updateStatesFinished s fin = some s1 →
    (∀ b, b ∈ s.blockPool → b ∈ s1.blockPool) ∧
    (∀ k2, alookup s.reqs k2 = none → alookup s1.reqs k2 = none) ∧
    (∀ k2, alookup s.reserved k2 = none → alookup s1.reserved k2 = none) := by
  induction fin with
  | nil =>
    intro s s1 h
    simp only [updateStatesFinished, Option.some.injEq] at h
    subst h
    exact ⟨fun b hb => hb, fun k2 hk => hk, fun k2 hk => hk⟩
  | cons rid rest ih =>
    intro s s1 h
    simp only [updateStatesFinished] at h
    cases hf : freeFinishedOne s rid with
    | none => rw [hf] at h; simp at h
    | some sm =>
      rw [hf] at h
      dsimp only at h
      obtain ⟨hp1, hq1, hr1⟩ := freeFinishedOne_mono s sm rid hf
      obtain ⟨hp2, hq2, hr2⟩ := ih sm s1 h
      exact ⟨fun b hb => hp2 b (hp1 b hb), fun k2 hk => hq2 k2 (hq1 k2 hk),
        fun k2 hk => hr2 k2 (hr1 k2 hk)⟩

/-! ### Characterization of the prefill step -/

theorem preparePrompt_misaligned (s : CBState) (rid : Nat) (toks : List Nat)
    (maxT : Nat) (hne : s.reqs ≠ []) (hlen : s.tkv < toks.length) :
    preparePrompt s rid toks maxT = none := by
  have hal : prefillAligned s toks.length = false := by
    unfold prefillAligned
    simp only [Bool.or_eq_false_iff]
    constructor
    · simp [hne]
    · simp only [decide_eq_false_iff_not]
      omega
  unfold preparePrompt
  dsimp only
  rw [hal]
  rfl

theorem preparePrompt_eq_new (s : CBState) (rid : Nat) (toks : List Nat)
    (maxT : Nat) (s1 : CBState) (out : PrefillOut) (hempty : s.reqs = [])
    (h : preparePrompt s rid toks maxT = some (s1, out)) :
    cdiv toks.length s.blockSize * s.blockSize / s.blockSize ≤ s.blockPool.length ∧
    s1 = { s with
             tkv := cdiv toks.length s.blockSize * s.blockSize
             blockPool := s.blockPool.drop
               (cdiv toks.length s.blockSize * s.blockSize / s.blockSize)
             reqs := aset s.reqs rid
               { blocks := s.blockPool.take
                   (cdiv toks.length s.blockSize * s.blockSize / s.blockSize)
                 leftPadding := cdiv toks.length s.blockSize * s.blockSize - toks.length
                 outputTokenIds := []
                 promptTokenIds := toks }
             reserved := aset s.reserved rid
               (cdiv (cdiv toks.length s.blockSize * s.blockSize + maxT - 1)
                 s.blockSize) } ∧
    out = { slotMapping := (List.range (cdiv toks.length s.blockSize * s.blockSize)).map
              (fun i => (s.blockPool.take
                  (cdiv toks.length s.blockSize * s.blockSize / s.blockSize)).getD
                  (i / s.blockSize) 0 * s.blockSize + i % s.blockSize)
            inputLen := cbPadInputIdsLen (cdiv toks.length s.blockSize * s.blockSize)
              toks.length (cdiv toks.length s.blockSize * s.blockSize)
            nPadsRight := cdiv toks.length s.blockSize * s.blockSize -
              max (cdiv toks.length s.blockSize * s.blockSize) toks.length } := by
  have hisEmpty : s.reqs.isEmpty = true := by simp [hempty]
  have hal : prefillAligned s toks.length = true := by
    unfold prefillAligned
    simp [hisEmpty]
  unfold preparePrompt at h
  dsimp only at h
  rw [hal, hisEmpty] at h
  simp only [eq_self_iff_true, if_true] at h
  by_cases hpool : s.blockPool.length <
      cdiv toks.length s.blockSize * s.blockSize / s.blockSize
  · rw [if_pos hpool] at h
    exact absurd h (by simp)
  · rw [if_neg hpool] at h
    simp only [Option.some.injEq, Prod.mk.injEq] at h
    exact ⟨by omega, h.1.symm, h.2.symm⟩

theorem preparePrompt_eq_join (s : CBState) (rid : Nat) (toks : List Nat)
    (maxT : Nat) (s1 : CBState) (out : PrefillOut) (hne : s.reqs ≠ [])
    (h : preparePrompt s rid toks maxT = some (s1, out)) :
    toks.length ≤ s.tkv ∧
    cdiv s.tkv s.blockSize * s.blockSize / s.blockSize ≤ s.blockPool.length ∧
    s1 = { s with
             tkv := s.tkv
             blockPool := s.blockPool.drop
               (cdiv s.tkv s.blockSize * s.blockSize / s.blockSize)
             reqs := aset s.reqs rid
               { blocks := s.blockPool.take
                   (cdiv s.tkv s.blockSize * s.blockSize / s.blockSize)
                 leftPadding := s.tkv - toks.length
                 outputTokenIds := []
                 promptTokenIds := toks }
             reserved := aset s.reserved rid
               (cdiv (s.tkv + maxT - 1) s.blockSize) } ∧
    out = { slotMapping := (List.range (cdiv s.tkv s.blockSize * s.blockSize)).map
              (fun i => (s.blockPool.take
                  (cdiv s.tkv s.blockSize * s.blockSize / s.blockSize)).getD
                  (i / s.blockSize) 0 * s.blockSize + i % s.blockSize)
            inputLen := cbPadInputIdsLen s.tkv toks.length
              (cdiv s.tkv s.blockSize * s.blockSize)
            nPadsRight := cdiv s.tkv s.blockSize * s.blockSize -
              max s.tkv toks.length } := by
  have hisEmpty : s.reqs.isEmpty = false := by simp [hne]
  unfold preparePrompt at h
  dsimp only at h
  cases hal : prefillAligned s toks.length with
  | false =>
    rw [hal] at h
    exact absurd h (by simp)
  | true =>
    rw [hal] at h
    have hlen : toks.length ≤ s.tkv := by
      unfold prefillAligned at hal
      simp only [hisEmpty, Bool.false_or, decide_eq_true_eq] at hal
      exact hal
    rw [hisEmpty] at h
    simp only [eq_self_iff_true, if_true, Bool.false_eq_true, if_false] at h
    by_cases hpool : s.blockPool.length <
        cdiv s.tkv s.blockSize * s.blockSize / s.blockSize
    · rw [if_pos hpool] at h
      exact absurd h (by simp)
    · rw [if_neg hpool] at h
      simp only [Option.some.injEq, Prod.mk.injEq] at h
      exact ⟨hlen, by omega, h.1.symm, h.2.symm⟩

/-! ### Characterization of the decode step -/

theorem prepareDecode_eq (s : CBState) (ncomp : Nat → Nat) (s1 : CBState)
    (out : DecodeOut) (h : prepareDecode s ncomp = some (s1, out)) :
    s.reqs ≠ [] ∧
    ∃ reqs2 pool2 rows,
      decodeLoop s.blockSize s.tkv ncomp s.reqs s.blockPool
        = some (reqs2, pool2, rows) ∧
      s1 = { s with tkv := s.tkv + 1, reqs := reqs2, blockPool := pool2 } ∧
      2 ≤ out.inputTokens.length ∧
      (s.reqs.length = 1 →
        out = { inputTokens := rows.map (fun row => [row.token])
                  ++ rows.map (fun row => [row.token])
                inputPositions := rows.map (fun row => [row.pos])
                  ++ rows.map (fun row => [row.pos])
                currentTkvMask := List.replicate rows.length (s.tkv + 1)
                  ++ List.replicate rows.length (s.tkv + 1)
                leftPaddedPromptMask := rows.map (fun row => row.leftPad)
                  ++ rows.map (fun row => row.leftPad)
                blockTable := rows.map (fun row => row.blockRow)
                  ++ rows.map (fun row => row.blockRow)
                slotMapping := rows.map (fun row => row.slotRow)
                  ++ rows.map (fun row => row.slotRow)
                indices := List.replicate s.reqs.length true ++ [false] }) ∧
      (s.reqs.length ≠ 1 →
        out = { inputTokens := rows.map (fun row => [row.token])
                inputPositions := rows.map (fun row => [row.pos])
                currentTkvMask := List.replicate rows.length (s.tkv + 1)
                leftPaddedPromptMask := rows.map (fun row => row.leftPad)
                blockTable := rows.map (fun row => row.blockRow)
                slotMapping := rows.map (fun row => row.slotRow)
                indices := List.replicate s.reqs.length true }) := by
  unfold prepareDecode at h
  by_cases hreqs : s.reqs = []
  · rw [if_pos hreqs] at h
    exact absurd h (by simp)
  · rw [if_neg hreqs] at h
    cases hloop : decodeLoop s.blockSize s.tkv ncomp s.reqs s.blockPool with
    | none => rw [hloop] at h; exact absurd h (by simp)
    | some trip =>
      obtain ⟨reqs2, pool2, rows⟩ := trip
      rw [hloop] at h
      dsimp only at h
      by_cases hone : s.reqs.length = 1
      · rw [if_pos hone] at h
        dsimp only at h
        split at h
        · exact absurd h (by simp)
        · rename_i hguard
          simp only [Option.some.injEq, Prod.mk.injEq] at h
          refine ⟨hreqs, reqs2, pool2, rows, rfl, h.1.symm, ?_, ?_, ?_⟩
          · rw [← h.2]
            exact Nat.le_of_not_lt hguard
          · intro _
            exact h.2.symm
          · intro hcontra
            exact absurd hone hcontra
      · rw [if_neg hone] at h
        dsimp only at h
        split at h
        · exact absurd h (by simp)
        · rename_i hguard
          simp only [Option.some.injEq, Prod.mk.injEq] at h
          refine ⟨hreqs, reqs2, pool2, rows, rfl, h.1.symm, ?_, ?_, ?_⟩
          · rw [← h.2]
            exact Nat.le_of_not_lt hguard
          · intro hcontra
            exact absurd hcontra hone
          · intro _
            exact h.2.symm

/-! ### The sampled-token write-back leaves block bookkeeping unchanged -/

theorem appendSampledPrefill_proj {β : Type} (rid : Nat) (row : List Nat)
    (g : Nat × ReqEntry → β)
    (hg : ∀ p : Nat × ReqEntry, g (p.1, appendTokens p.2 row) = g p)
    (l : List (Nat × ReqEntry)) :
    (l.map (fun p => if p.1 = rid then (p.1, appendTokens p.2 row) else p)).map g
      = l.map g := by
  induction l with
  | nil => rfl
  | cons p rest ih =>
    by_cases hp : p.1 = rid
    · simp only [List.map_cons, if_pos hp, hg p, ih]
    · simp only [List.map_cons, if_neg hp, ih]

theorem zipAppend_proj {β : Type} (g : Nat × ReqEntry → β)
    (hg : ∀ (p : Nat × ReqEntry) (row : List Nat),
      g (p.1, appendTokens p.2 row) = g p) :
    ∀ (l : List (Nat × ReqEntry)) (rows : List (List Nat)),
      l.length ≤ rows.length →
      ((l.zip rows).map (fun pq => (pq.1.1, appendTokens pq.1.2 pq.2))).map g
        = l.map g := by
  intro l
  induction l with
  | nil => intro rows h; rfl
  | cons p rest ih =>
    intro rows h
    cases rows with
    | nil => simp at h
    | cons row rrest =>
      simp only [List.zip_cons_cons, List.map_cons]
      rw [ih rrest (by simpa using h)]
      rw [hg p]

theorem appendSampledPrefill_inv (s : CBState) (rid : Nat) (row : List Nat)
    (hinv : RunnerInv s) : RunnerInv (appendSampledPrefill s rid row) := by
  obtain ⟨hbs, hperm, hnd, hsync, hreq⟩ := hinv
  have hfst := appendSampledPrefill_proj rid row Prod.fst (fun p => rfl) s.reqs
  have hblocks := appendSampledPrefill_proj rid row (fun p => p.2.blocks)
    (fun p => rfl) s.reqs
  refine ⟨hbs, ?_, ?_, ?_, ?_⟩
  · show List.Perm (s.blockPool ++
      ((s.reqs.map (fun p => if p.1 = rid then (p.1, appendTokens p.2 row) else p)).map
        (fun p => p.2.blocks)).flatten) (List.range s.nBlocks)
    rw [hblocks]
    exact hperm
  · show ((s.reqs.map
      (fun p => if p.1 = rid then (p.1, appendTokens p.2 row) else p)).map
        Prod.fst).Nodup
    rw [hfst]
    exact hnd
  · show s.reserved.map Prod.fst = (s.reqs.map
      (fun p => if p.1 = rid then (p.1, appendTokens p.2 row) else p)).map Prod.fst
    rw [hfst]
    exact hsync
  · intro p hp
    have hp2 : p ∈ s.reqs.map
        (fun q => if q.1 = rid then (q.1, appendTokens q.2 row) else q) := hp
    obtain ⟨q, hq, hqe⟩ := List.mem_map.mp hp2
    by_cases hqr : q.1 = rid
    · rw [if_pos hqr] at hqe
      rw [← hqe]
      exact hreq q hq
    · rw [if_neg hqr] at hqe
      rw [← hqe]
      exact hreq q hq

theorem appendSampledDecode_inv (s : CBState) (rows : List (List Nat))
    (s1 : CBState) (hinv : RunnerInv s)
    (h : appendSampledDecode s rows = some s1) : RunnerInv s1 := by
  obtain ⟨hbs, hperm, hnd, hsync, hreq⟩ := hinv
  unfold appendSampledDecode at h
  by_cases hlen : s.reqs.length ≤ rows.length
  · rw [if_pos hlen] at h
    injection h with h
    subst h
    have hfst := zipAppend_proj Prod.fst (fun p row => rfl) s.reqs rows hlen
    have hblocks := zipAppend_proj (fun p => p.2.blocks) (fun p row => rfl)
      s.reqs rows hlen
    refine ⟨hbs, ?_, ?_, ?_, ?_⟩
    · show List.Perm (s.blockPool ++
        (((s.reqs.zip rows).map (fun pq => (pq.1.1, appendTokens pq.1.2 pq.2))).map
          (fun p => p.2.blocks)).flatten) (List.range s.nBlocks)
      rw [hblocks]
      exact hperm
    · show (((s.reqs.zip rows).map
        (fun pq => (pq.1.1, appendTokens pq.1.2 pq.2))).map Prod.fst).Nodup
      rw [hfst]
      exact hnd
    · show s.reserved.map Prod.fst = ((s.reqs.zip rows).map
        (fun pq => (pq.1.1, appendTokens pq.1.2 pq.2))).map Prod.fst
      rw [hfst]
      exact hsync
    · intro p hp
      have hp2 : p ∈ (s.reqs.zip rows).map
          (fun pq => (pq.1.1, appendTokens pq.1.2 pq.2)) := hp
      obtain ⟨pq, hpq, hpe⟩ := List.mem_map.mp hp2
      obtain ⟨q, row0⟩ := pq
      have hqmem : q ∈ s.reqs := (List.of_mem_zip hpq).1
      rw [← hpe]
      exact hreq q hqmem
  · rw [if_neg hlen] at h
    exact absurd h (by simp)

/-! ### Invariant preservation, finished-request processing -/

theorem freeFinishedOne_inv (s s1 : CBState) (rid : Nat) (hinv : RunnerInv s)
    (h : freeFinishedOne s rid = some s1) : RunnerInv s1 := by
  obtain ⟨hbs, hperm, hnd, hsync, hreq⟩ := hinv
  cases hres : alookup s.reqs rid with
  | none =>
    rw [freeFinishedOne_not_resident s rid hres] at h
    injection h with h
    subst h
    exact ⟨hbs, hperm, hnd, hsync, hreq⟩
  | some r =>
    have hrmem : (rid, r) ∈ s.reqs := alookup_mem _ _ _ hres
    have hfacts : r.blocks.length = cdiv s.tkv s.blockSize ∧
        r.promptTokenIds ≠ [] ∧
        r.leftPadding + r.promptTokenIds.length ≤ s.tkv := hreq _ hrmem
    have hplen : 1 ≤ r.promptTokenIds.length := by
      cases hp : r.promptTokenIds with
      | nil => exact absurd hp hfacts.2.1
      | cons a l => simp [hp]
    have htkv : 1 ≤ s.tkv := by
      have := hfacts.2.2
      omega
    have hbne : r.blocks ≠ [] := by
      have hpos := cdiv_pos s.blockSize s.tkv hbs htkv
      have hblen := hfacts.1
      intro hcon
      rw [hcon] at hblen
      simp only [List.length_nil] at hblen
      omega
    have hledger : rid ∈ s.reserved.map Prod.fst := by
      rw [hsync]
      exact alookup_mem_keys _ _ _ hres
    rw [freeFinishedOne_resident s rid r hres hbne hledger] at h
    injection h with h
    subst h
    refine ⟨hbs, ?_, ?_, ?_, ?_⟩
    · show List.Perm ((s.blockPool ++ r.blocks) ++
        ((aremove s.reqs rid).map (fun p => p.2.blocks)).flatten)
        (List.range s.nBlocks)
      have hA := flatten_aremove_perm s.reqs rid r hres
      refine List.Perm.trans ?_ hperm
      rw [List.perm_iff_count]
      intro a
      have h1 := (List.perm_iff_count.mp hA) a
      simp only [List.count_append, heldBlocks] at h1 ⊢
      omega
    · show ((aremove s.reqs rid).map Prod.fst).Nodup
      rw [aremove_keys]
      exact List.Nodup.erase rid hnd
    · show (aremove s.reserved rid).map Prod.fst
        = (aremove s.reqs rid).map Prod.fst
      rw [aremove_keys, aremove_keys, hsync]
    · intro p hp
      exact hreq p (aremove_subset _ _ _ hp)

theorem updateStatesFinished_inv (fin : List Nat) :
    ∀ (s s1 : CBState), RunnerInv s → updateStatesFinished s fin = some s1 →
      RunnerInv s1 := by
  induction fin with
  | nil =>
    intro s s1 hinv h
    simp only [updateStatesFinished, Option.some.injEq] at h
    subst h
    exact hinv
  | cons rid rest ih =>
    intro s s1 hinv h
    simp only [updateStatesFinished] at h
    cases hf : freeFinishedOne s rid with
    | none => rw [hf] at h; simp at h
    | some sm =>
      rw [hf] at h
      dsimp only at h
      exact ih sm s1 (freeFinishedOne_inv s sm rid hinv hf) h

/-! ### Invariant preservation, prefill -/

theorem preparePrompt_inv (s : CBState) (rid : Nat) (toks : List Nat) (maxT : Nat)
    (s1 : CBState) (out : PrefillOut) (hinv : RunnerInv s)
    (hfresh : alookup s.reqs rid = none) (htoks : toks ≠ [])
    (h : preparePrompt s rid toks maxT = some (s1, out)) : RunnerInv s1 := by
  obtain ⟨hbs, hperm, hnd, hsync, hreq⟩ := hinv
  have hfreshk : rid ∉ s.reqs.map Prod.fst := (alookup_eq_none _ _).mp hfresh
  have hfreshres : rid ∉ s.reserved.map Prod.fst := by
    rw [hsync]
    exact hfreshk
  have htoksl : 1 ≤ toks.length := by
    cases hc : toks with
    | nil => exact absurd hc htoks
    | cons a l => simp [hc]
  by_cases hempty : s.reqs = []
  · obtain ⟨hpool, hs1, hout⟩ := preparePrompt_eq_new s rid toks maxT s1 out hempty h
    subst hs1
    have hK : cdiv toks.length s.blockSize * s.blockSize / s.blockSize
        = cdiv toks.length s.blockSize := Nat.mul_div_cancel _ hbs
    have hT : cdiv (cdiv toks.length s.blockSize * s.blockSize) s.blockSize
        = cdiv toks.length s.blockSize := cdiv_mul_self _ _ hbs
    have hLT : toks.length ≤ cdiv toks.length s.blockSize * s.blockSize :=
      le_cdiv_mul _ _ hbs
    rw [aset_fresh s.reqs rid _ hfreshk, aset_fresh s.reserved rid _ hfreshres]
    refine ⟨hbs, ?_, ?_, ?_, ?_⟩
    · show List.Perm ((s.blockPool.drop
        (cdiv toks.length s.blockSize * s.blockSize / s.blockSize)) ++
        ((s.reqs ++ [(rid,
          ({ blocks := s.blockPool.take
              (cdiv toks.length s.blockSize * s.blockSize / s.blockSize)
             leftPadding := cdiv toks.length s.blockSize * s.blockSize - toks.length
             outputTokenIds := []
             promptTokenIds := toks } : ReqEntry))]).map (fun p => p.2.blocks)).flatten)
        (List.range s.nBlocks)
      refine List.Perm.trans ?_ hperm
      rw [List.perm_iff_count]
      intro a
      have htd : (s.blockPool.take
            (cdiv toks.length s.blockSize * s.blockSize / s.blockSize)) ++
          (s.blockPool.drop
            (cdiv toks.length s.blockSize * s.blockSize / s.blockSize))
          = s.blockPool := List.take_append_drop _ _
      have hcnt : (s.blockPool.take
            (cdiv toks.length s.blockSize * s.blockSize / s.blockSize)).count a +
          (s.blockPool.drop
            (cdiv toks.length s.blockSize * s.blockSize / s.blockSize)).count a
          = s.blockPool.count a := by
        rw [← List.count_append, htd]
      simp only [List.count_append, List.map_append, List.flatten_append,
        List.map_cons, List.map_nil, List.flatten_cons, List.flatten_nil,
        List.append_nil, heldBlocks]
      omega
    · show ((s.reqs ++ [(rid, _)]).map Prod.fst).Nodup
      simp only [List.map_append, List.map_cons, List.map_nil]
      rw [List.nodup_append]
      exact ⟨hnd, List.nodup_singleton rid, by simpa using hfreshk⟩
    · show (s.reserved ++ [(rid, _)]).map Prod.fst
        = (s.reqs ++ [(rid, _)]).map Prod.fst
      simp only [List.map_append, List.map_cons, List.map_nil]
      rw [hsync]
    · intro p hp
      rcases List.mem_append.mp hp with hp | hp
    
      · rw [hempty] at hp
        simp at hp
      · simp only [List.mem_cons, List.not_mem_nil, or_false] at hp
        subst hp
        refine ⟨?_, htoks, ?_⟩
        · show (s.blockPool.take
            (cdiv toks.length s.blockSize * s.blockSize / s.blockSize)).length
            = cdiv (cdiv toks.length s.blockSize * s.blockSize) s.blockSize
          rw [List.length_take, hT, hK]
          rw [hK] at hpool
          omega
        · show cdiv toks.length s.blockSize * s.blockSize - toks.length
            + toks.length ≤ cdiv toks.length s.blockSize * s.blockSize
          omega
  · obtain ⟨hlen, hpool, hs1, hout⟩ := preparePrompt_eq_join s rid toks maxT s1 out hempty h
    subst hs1
    have hK : cdiv s.tkv s.blockSize * s.blockSize / s.blockSize
        = cdiv s.tkv s.blockSize := Nat.mul_div_cancel _ hbs
    rw [aset_fresh s.reqs rid _ hfreshk, aset_fresh s.reserved rid _ hfreshres]
    refine ⟨hbs, ?_, ?_, ?_, ?_⟩
    · show List.Perm ((s.blockPool.drop
        (cdiv s.tkv s.blockSize * s.blockSize / s.blockSize)) ++
        ((s.reqs ++ [(rid,
          ({ blocks := s.blockPool.take
              (cdiv s.tkv s.blockSize * s.blockSize / s.blockSize)
             leftPadding := s.tkv - toks.length
             outputTokenIds := []
             promptTokenIds := toks } : ReqEntry))]).map (fun p => p.2.blocks)).flatten)
        (List.range s.nBlocks)
      refine List.Perm.trans ?_ hperm
      rw [List.perm_iff_count]
      intro a
      have htd : (s.blockPool.take
            (cdiv s.tkv s.blockSize * s.blockSize / s.blockSize)) ++
          (s.blockPool.drop
            (cdiv s.tkv s.blockSize * s.blockSize / s.blockSize))
          = s.blockPool := List.take_append_drop _ _
      have hcnt : (s.blockPool.take
            (cdiv s.tkv s.blockSize * s.blockSize / s.blockSize)).count a +
          (s.blockPool.drop
            (cdiv s.tkv s.blockSize * s.blockSize / s.blockSize)).count a
          = s.blockPool.count a := by
        rw [← List.count_append, htd]
      simp only [List.count_append, List.map_append, List.flatten_append,
        List.map_cons, List.map_nil, List.flatten_cons, List.flatten_nil,
        List.append_nil, heldBlocks]
      omega
    · show ((s.reqs ++ [(rid, _)]).map Prod.fst).Nodup
      simp only [List.map_append, List.map_cons, List.map_nil]
      rw [List.nodup_append]
      exact ⟨hnd, List.nodup_singleton rid, by simpa using hfreshk⟩
    · show (s.reserved ++ [(rid, _)]).map Prod.fst
        = (s.reqs ++ [(rid, _)]).map Prod.fst
      simp only [List.map_append, List.map_cons, List.map_nil]
      rw [hsync]
    · intro p hp
      rcases List.mem_append.mp hp with hp | hp
    
      · exact hreq p hp
      · simp only [List.mem_cons, List.not_mem_nil, or_false] at hp
        subst hp
        refine ⟨?_, htoks, ?_⟩
        · show (s.blockPool.take
            (cdiv s.tkv s.blockSize * s.blockSize / s.blockSize)).length
            = cdiv s.tkv s.blockSize
          rw [List.length_take, hK]
          rw [hK] at hpool
          omega
        · show s.tkv - toks.length + toks.length ≤ s.tkv
          omega

/-! ### Invariant preservation, decode -/

theorem prepareDecode_inv (s : CBState) (ncomp : Nat → Nat) (s1 : CBState)
    (out : DecodeOut) (hinv : RunnerInv s)
    (h : prepareDecode s ncomp = some (s1, out)) : RunnerInv s1 := by
  obtain ⟨hbs, hperm, hnd, hsync, hreq⟩ := hinv
  obtain ⟨hne, reqs2, pool2, rows, hloop, hs1, hlen2, hd1, hd2⟩ :=
    prepareDecode_eq s ncomp s1 out h
  obtain ⟨hl1, hl2, hkeys, hloopperm, hpt⟩ :=
    decodeLoop_spec s.blockSize s.tkv ncomp s.reqs s.blockPool reqs2 pool2 rows hloop
  subst hs1
  refine ⟨hbs, ?_, ?_, ?_, ?_⟩
  · show List.Perm (pool2 ++ (reqs2.map (fun p => p.2.blocks)).flatten)
      (List.range s.nBlocks)
    exact List.Perm.trans hloopperm hperm
  · show (reqs2.map Prod.fst).Nodup
    rw [hkeys]
    exact hnd
  · show s.reserved.map Prod.fst = reqs2.map Prod.fst
    rw [hkeys]
    exact hsync
  · intro p hp
    have hp2 : p ∈ reqs2 := hp
    obtain ⟨⟨i, hi2⟩, hget⟩ := List.mem_iff_get.mp hp2
    have hi : i < s.reqs.length := by omega
    have hr : i < rows.length := by omega
    obtain ⟨hfst, hlp, hout, hprompt, hblocks, _⟩ := hpt i hi hi2 hr
    have hold : (s.reqs.get ⟨i, hi⟩).2.blocks.length = cdiv s.tkv s.blockSize ∧
        (s.reqs.get ⟨i, hi⟩).2.promptTokenIds ≠ [] ∧
        (s.reqs.get ⟨i, hi⟩).2.leftPadding
          + (s.reqs.get ⟨i, hi⟩).2.promptTokenIds.length ≤ s.tkv :=
      hreq _ (List.get_mem _ _ _)
    rw [← hget]
    have hsucc := cdiv_succ_alloc s.blockSize s.tkv hbs
    refine ⟨?_, ?_, ?_⟩
    · show (reqs2.get ⟨i, hi2⟩).2.blocks.length = cdiv (s.tkv + 1) s.blockSize
      by_cases hcond : s.tkv / s.blockSize + 1 > (s.reqs.get ⟨i, hi⟩).2.blocks.length
      · rw [if_pos hcond] at hblocks
        obtain ⟨b, hb⟩ := hblocks
        rw [hb]
        rw [if_pos (by omega)] at hsucc
        simp only [List.length_append, List.length_cons, List.length_nil]
        omega
      · rw [if_neg hcond] at hblocks
        rw [hblocks]
        rw [if_neg (by omega)] at hsucc
        omega
    · show (reqs2.get ⟨i, hi2⟩).2.promptTokenIds ≠ []
      rw [hprompt]
      exact hold.2.1
    · show (reqs2.get ⟨i, hi2⟩).2.leftPadding
        + (reqs2.get ⟨i, hi2⟩).2.promptTokenIds.length ≤ s.tkv + 1
      rw [hlp, hprompt]
      have := hold.2.2
      omega

/-! ### Invariant preservation, left-padding reclamation -/

theorem reduceLeftPadding_inv (s s2 : CBState) (hinv : RunnerInv s)
    (h : reduceLeftPadding s = some s2) : RunnerInv s2 := by
  obtain ⟨hbs, hperm, hnd, hsync, hreq⟩ := hinv
  obtain ⟨hn, hb, htkv, hresv, hreqs2, hplen, hpp, hk⟩ := reduceLeftPadding_spec s s2 h
  by_cases hempty : s.reqs = []
  · have h2 : s2.reqs = [] := by rw [hreqs2, hempty]; rfl
    refine ⟨by rw [hb]; exact hbs, ?_, by rw [h2]; simp, ?_, ?_⟩
    · rw [hn]
      exact List.Perm.trans hpp hperm
    · rw [hresv, hsync, hempty, h2]
    · intro p hp
      rw [h2] at hp
      simp at hp
  · have hminmem : listMin (s.reqs.map (fun q => q.2.leftPadding))
        ∈ s.reqs.map (fun q => q.2.leftPadding) :=
      listMin_mem _ (by simpa using hempty)
    obtain ⟨q0, hq0, hq0e⟩ := List.mem_map.mp hminmem
    have hq0f : q0.2.blocks.length = cdiv s.tkv s.blockSize ∧
        q0.2.promptTokenIds ≠ [] ∧
        q0.2.leftPadding + q0.2.promptTokenIds.length ≤ s.tkv := hreq _ hq0
    have hq0p : 1 ≤ q0.2.promptTokenIds.length := by
      cases hc : q0.2.promptTokenIds with
      | nil => exact absurd hc hq0f.2.1
      | cons a l => simp [hc]
    have hminle : listMin (s.reqs.map (fun q => q.2.leftPadding)) + 1 ≤ s.tkv := by
      have := hq0f.2.2
      omega
    have hoffmin : (listMin (s.reqs.map (fun q => q.2.leftPadding)) / s.blockSize)
        * s.blockSize ≤ listMin (s.reqs.map (fun q => q.2.leftPadding)) :=
      Nat.div_mul_le_self _ _
    have hoffle : (listMin (s.reqs.map (fun q => q.2.leftPadding)) / s.blockSize)
        * s.blockSize ≤ s.tkv := by omega
    have hcd : cdiv (s.tkv -
        (listMin (s.reqs.map (fun q => q.2.leftPadding)) / s.blockSize)
          * s.blockSize) s.blockSize
        = cdiv s.tkv s.blockSize -
          listMin (s.reqs.map (fun q => q.2.leftPadding)) / s.blockSize :=
      cdiv_sub_mul _ _ _ hbs hoffle
    refine ⟨by rw [hb]; exact hbs, ?_, ?_, ?_, ?_⟩
    · rw [hn]
      exact List.Perm.trans hpp hperm
    · rw [hreqs2]
      have hfstmap : (s.reqs.map (fun p : Nat × ReqEntry => (p.1,
          { p.2 with
              blocks := p.2.blocks.drop
                (listMin (s.reqs.map (fun q : Nat × ReqEntry => q.2.leftPadding))
                  / s.blockSize)
              leftPadding := p.2.leftPadding -
                (listMin (s.reqs.map (fun q : Nat × ReqEntry => q.2.leftPadding))
                  / s.blockSize) * s.blockSize }))).map Prod.fst
          = s.reqs.map Prod.fst := by
        rw [List.map_map]
        rfl
      rw [hfstmap]
      exact hnd
    · rw [hresv, hsync, hreqs2]
      rw [List.map_map]
      rfl
    · intro p hp
      rw [hreqs2] at hp
      obtain ⟨q, hq, hqe⟩ := List.mem_map.mp hp
      have hqf : q.2.blocks.length = cdiv s.tkv s.blockSize ∧
          q.2.promptTokenIds ≠ [] ∧
          q.2.leftPadding + q.2.promptTokenIds.length ≤ s.tkv := hreq _ hq
      have hqpad : q.2.leftPadding ∈ s.reqs.map (fun r => r.2.leftPadding) :=
        List.mem_map.mpr ⟨q, hq, rfl⟩
      have hqmin : listMin (s.reqs.map (fun r => r.2.leftPadding)) ≤ q.2.leftPadding :=
        listMin_le _ _ hqpad
      rw [← hqe]
      refine ⟨?_, ?_, ?_⟩
      · show (q.2.blocks.drop
          (listMin (s.reqs.map (fun r => r.2.leftPadding)) / s.blockSize)).length
          = cdiv s2.tkv s2.blockSize
        rw [List.length_drop, hb, htkv, hcd, hqf.1]
      · show q.2.promptTokenIds ≠ []
        exact hqf.2.1
      · show q.2.leftPadding -
            (listMin (s.reqs.map (fun r => r.2.leftPadding)) / s.blockSize)
              * s.blockSize
          + q.2.promptTokenIds.length ≤ s2.tkv
        rw [htkv]
        have := hqf.2.2
        omega

/-! ### The invariant holds in every reachable state -/

theorem initState_inv (numBlocks blockSize : Nat) (hbs : 0 < blockSize) :
    RunnerInv (initState numBlocks blockSize) := by
  refine ⟨hbs, ?_, by simp [initState], by simp [initState], ?_⟩
  · show List.Perm (List.range numBlocks ++ ([] : List (List Nat)).flatten)
      (List.range numBlocks)
    simp
  · intro p hp
    simp [initState] at hp

theorem step_inv (s s1 : CBState) (hinv : RunnerInv s) (hstep : Step s s1) :
    RunnerInv s1 :=
  match hstep with
  | Step.prefill _ rid toks maxT row s2 out hfresh htoks hp =>
      appendSampledPrefill_inv s2 rid row
        (preparePrompt_inv _ rid toks maxT s2 out hinv hfresh htoks hp)
  | Step.decode _ ncomp rows s2 s3 out hp ha =>
      appendSampledDecode_inv s2 rows s3
        (prepareDecode_inv _ ncomp s2 out hinv hp) ha
  | Step.reduce _ s2 hr => reduceLeftPadding_inv _ s2 hinv hr
  | Step.finished _ fin s2 hf => updateStatesFinished_inv fin _ s2 hinv hf

theorem reachable_inv (s : CBState) (h : Reachable s) : RunnerInv s := by
  induction h with
  | init n b hb => exact initState_inv n b hb
  | step s s1 hr hst ih => exact step_inv s s1 ih hst

/-- **C1** Block conservation: in every reachable state of the
continuous-batching runner, the number of free block ids plus the total number
of blocks held by resident requests equals `n_blocks`, and the block tables of
distinct resident requests are pairwise disjoint (no block id has two owners). -/
theorem block_conservation (s : CBState) (hs : Reachable s) :
    s.blockPool.length + (s.reqs.map (fun p => p.2.blocks.length)).sum = s.nBlocks ∧
    List.Pairwise List.Disjoint (s.reqs.map (fun p => p.2.blocks)) := by
  obtain ⟨hbs, hperm, hnd, hsync, hreq⟩ := reachable_inv s hs
  constructor
  · have hlen : s.blockPool.length + (heldBlocks s).length = s.nBlocks := by
      have hx := hperm.length_eq
      simp only [List.length_append, List.length_range] at hx
      exact hx
    have hflat : (heldBlocks s).length
        = (s.reqs.map (fun p => p.2.blocks.length)).sum := by
      unfold heldBlocks
      rw [List.length_flatten, List.map_map]
      rfl
    omega
  · have hjoin : (s.blockPool ++ heldBlocks s).Nodup :=
      (hperm.nodup_iff).mpr (List.nodup_range _)
    have hheld : (heldBlocks s).Nodup := (List.nodup_append.mp hjoin).2.1
    exact (List.nodup_flatten.mp hheld).2

/-! ### Reachability of the concrete scenario states -/

theorem reachable_cexState1 : Reachable cexState1 := by
  have h0 : Reachable (initState 4 64) := Reachable.init 4 64 (by decide)
  have hp : preparePrompt (initState 4 64) 0 prompt64 10 = some (sPre1, outPre1) := by
    decide
  have hstep : Step (initState 4 64) (appendSampledPrefill sPre1 0 [7]) :=
    Step.prefill (initState 4 64) 0 prompt64 10 [7] sPre1 outPre1 (by decide)
      (by decide) hp
  have he : appendSampledPrefill sPre1 0 [7] = cexState1 := by decide
  rw [he] at hstep
  exact Reachable.step _ _ h0 hstep

theorem reachable_cexState2 : Reachable cexState2 := by
  have hp : prepareDecode cexState1 (fun _ => 64) = some (sDec1, outDec1) := by
    decide
  have ha : appendSampledDecode sDec1 [[8], [9]] = some cexState2 := by decide
  exact Reachable.step _ _ reachable_cexState1
    (Step.decode cexState1 (fun _ => 64) [[8], [9]] sDec1 cexState2 outDec1 hp ha)

/-! ### Small indexing helpers -/

theorem get_map_eq {α β : Type} (f : α → β) :
    ∀ (l : List α) (i : Nat) (h2 : i < (l.map f).length) (h : i < l.length),
      (l.map f).get ⟨i, h2⟩ = f (l.get ⟨i, h⟩) := by
  intro l
  induction l with
  | nil => intro i h2 h; simp at h
  | cons a rest ih =>
    intro i h2 h
    cases i with
    | zero => rfl
    | succ j =>
      exact ih j (by simpa using h2) (by simpa using h)

theorem getD_map_get {α β : Type} (d : β) (f : α → β) :
    ∀ (l : List α) (i : Nat) (h : i < l.length),
      (l.map f).getD i d = f (l.get ⟨i, h⟩) := by
  intro l
  induction l with
  | nil => intro i h; simp at h
  | cons a rest ih =>
    intro i h
    cases i with
    | zero => rfl
    | succ j =>
      exact ih j (by simpa using h)

theorem getD_append_left {α : Type} (d : α) :
    ∀ (l l2 : List α) (i : Nat), i < l.length → (l ++ l2).getD i d = l.getD i d := by
  intro l
  induction l with
  | nil => intro l2 i h; simp at h
  | cons a rest ih =>
    intro l2 i h
    cases i with
    | zero => rfl
    | succ j =>
      exact ih l2 j (by simpa using h)

theorem cbPadInputIdsLen_eq (t len bp : Nat) (h1 : t ≤ bp) (h2 : len ≤ bp) :
    cbPadInputIdsLen t len bp = bp := by
  unfold cbPadInputIdsLen
  dsimp only
  split
  · omega
  · rename_i hc
    rw [Nat.not_lt] at hc
    have hmax : max t len ≤ bp := by omega
    omega

/-! ### Resident finished request under the invariant -/

theorem freeFinishedOne_resident_of_inv (s : CBState) (rid : Nat) (r : ReqEntry)
    (hinv : RunnerInv s) (hres : alookup s.reqs rid = some r) :
    freeFinishedOne s rid = some
      { s with reqs := aremove s.reqs rid
               reserved := aremove s.reserved rid
               blockPool := s.blockPool ++ r.blocks } := by
  obtain ⟨hbs, hperm, hnd, hsync, hreq⟩ := hinv
  have hrmem : (rid, r) ∈ s.reqs := alookup_mem _ _ _ hres
  have hfacts : r.blocks.length = cdiv s.tkv s.blockSize ∧
      r.promptTokenIds ≠ [] ∧
      r.leftPadding + r.promptTokenIds.length ≤ s.tkv := hreq _ hrmem
  have hplen : 1 ≤ r.promptTokenIds.length := by
    cases hp : r.promptTokenIds with
    | nil => exact absurd hp hfacts.2.1
    | cons a l => simp [hp]
  have htkv : 1 ≤ s.tkv := by
    have := hfacts.2.2
    omega
  have hbne : r.blocks ≠ [] := by
    have hpos := cdiv_pos s.blockSize s.tkv hbs htkv
    have hblen := hfacts.1
    intro hcon
    rw [hcon] at hblen
    simp only [List.length_nil] at hblen
    omega
  have hledger : rid ∈ s.reserved.map Prod.fst := by
    rw [hsync]
    exact alookup_mem_keys _ _ _ hres
  exact freeFinishedOne_resident s rid r hres hbne hledger

theorem freeFinishedOne_lookup_ne (s sm : CBState) (rid0 rid : Nat)
    (hne : rid0 ≠ rid) (h : freeFinishedOne s rid0 = some sm) :
    alookup sm.reqs rid = alookup s.reqs rid := by
  unfold freeFinishedOne at h
  cases hres : alookup s.reqs rid0 with
  | none =>
    rw [hres] at h
    injection h with h
    subst h
    rfl
  | some r =>
    rw [hres] at h
    dsimp only at h
    by_cases hb : r.blocks = []
    · rw [if_pos hb] at h
      injection h with h
      subst h
      exact alookup_aremove_ne _ _ _ hne
    · rw [if_neg hb] at h
      cases hres2 : alookup s.reserved rid0 with
      | none => rw [hres2] at h; exact absurd h (by simp)
      | some v =>
        rw [hres2] at h
        injection h with h
        subst h
        exact alookup_aremove_ne _ _ _ hne

theorem updateStatesFinished_removes (fin : List Nat) :
    ∀ (s s1 : CBState), RunnerInv s → updateStatesFinished s fin = some s1 →
      ∀ rid, rid ∈ fin →
        alookup s1.reqs rid = none ∧ alookup s1.reserved rid = none ∧
        ∀ r, alookup s.reqs rid = some r → ∀ b, b ∈ r.blocks → b ∈ s1.blockPool := by
  induction fin with
  | nil =>
    intro s s1 _ h rid hmem
    simp at hmem
  | cons rid0 rest ih =>
    intro s s1 hinv hfold rid hmem
    simp only [updateStatesFinished] at hfold
    cases hf : freeFinishedOne s rid0 with
    | none => rw [hf] at hfold; simp at hfold
    | some sm =>
      rw [hf] at hfold
      dsimp only at hfold
      have hinvm := freeFinishedOne_inv s sm rid0 hinv hf
      obtain ⟨hbs, hperm, hnd, hsync, hreq⟩ := hinv
      obtain ⟨hmpool, hmreqs, hmresv⟩ := updateStatesFinished_mono rest sm s1 hfold
      have hdone : alookup sm.reqs rid0 = none ∧ alookup sm.reserved rid0 = none ∧
          ∀ r, alookup s.reqs rid0 = some r → ∀ b, b ∈ r.blocks → b ∈ sm.blockPool := by
        cases hres : alookup s.reqs rid0 with
        | none =>
          rw [freeFinishedOne_not_resident s rid0 hres] at hf
          injection hf with hf
          subst hf
          have hres2 : alookup s.reserved rid0 = none := by
            rw [alookup_eq_none, hsync]
            exact (alookup_eq_none _ _).mp hres
          exact ⟨hres, hres2, fun r hr => absurd hr (by simp [hres])⟩
        | some r =>
          rw [freeFinishedOne_resident_of_inv s rid0 r
            ⟨hbs, hperm, hnd, hsync, hreq⟩ hres] at hf
          injection hf with hf
          subst hf
          refine ⟨alookup_aremove_self _ _ hnd, alookup_aremove_self _ _ ?_, ?_⟩
          · rw [hsync]
            exact hnd
          · intro r2 hr2 b hb
            injection hr2 with hr2
            subst hr2
            show b ∈ s.blockPool ++ r.blocks
            simp only [List.mem_append]
            right
            exact hb
      rcases List.mem_cons.mp hmem with hmem0 | hmemrest
      · subst hmem0
        refine ⟨hmreqs _ hdone.1, hmresv _ hdone.2.1, ?_⟩
        intro r hr b hb
        exact hmpool b (hdone.2.2 r hr b hb)
      · obtain ⟨h1, h2, h3⟩ := ih sm s1 hinvm hfold rid hmemrest
        refine ⟨h1, h2, ?_⟩
        intro r hr b hb
        by_cases heq : rid0 = rid
        · subst heq
          exact hmpool b (hdone.2.2 r hr b hb)
        · exact h3 r (by rw [freeFinishedOne_lookup_ne s sm rid0 rid heq hf]; exact hr) b hb

/-- Witness for C1: the conservation statement evaluated at the concrete
reachable state `cexState1` (4 blocks, one resident request holding 1 block,
pool of size 3). -/
theorem block_conservation_witness :
    cexState1.blockPool.length +
        (cexState1.reqs.map (fun p => p.2.blocks.length)).sum = cexState1.nBlocks ∧
    List.Pairwise List.Disjoint (cexState1.reqs.map (fun p => p.2.blocks)) :=
  block_conservation cexState1 reachable_cexState1

/-- **C2** (amended) On every decode step the shared cursor advances by exactly
1; for each resident request, exactly one more block is allocated and appended
to its block table when the step's new token needs a fresh block
(`tkv_pre / block_size + 1` exceeds its block count, `tkv_pre` the pre-advance
cursor); and each request's slot-mapping entry equals
`last_block_id * block_size + (tkv_pre % block_size)` — the *pre-advance*
cursor, i.e. the advanced cursor minus one, not the advanced cursor itself. -/
theorem decode_step_spec (s : CBState) (ncomp : Nat → Nat) (s1 : CBState)
    (out : DecodeOut) (h : prepareDecode s ncomp = some (s1, out)) :
    s1.tkv = s.tkv + 1 ∧
    s1.reqs.length = s.reqs.length ∧
    ∀ i (hi : i < s.reqs.length) (hi2 : i < s1.reqs.length),
      (s1.reqs.get ⟨i, hi2⟩).1 = (s.reqs.get ⟨i, hi⟩).1 ∧
      (if s.tkv / s.blockSize + 1 > (s.reqs.get ⟨i, hi⟩).2.blocks.length
       then ∃ b, (s1.reqs.get ⟨i, hi2⟩).2.blocks
              = (s.reqs.get ⟨i, hi⟩).2.blocks ++ [b]
       else (s1.reqs.get ⟨i, hi2⟩).2.blocks = (s.reqs.get ⟨i, hi⟩).2.blocks) ∧
      ∃ lastB, (s1.reqs.get ⟨i, hi2⟩).2.blocks.getLast? = some lastB ∧
        out.slotMapping.getD i [] = [lastB * s.blockSize + s.tkv % s.blockSize] := by
  obtain ⟨hne, reqs2, pool2, rows, hloop, hs1, hlen2, hd1, hd2⟩ :=
    prepareDecode_eq s ncomp s1 out h
  obtain ⟨hl1, hl2, hkeys, hperm, hpt⟩ :=
    decodeLoop_spec s.blockSize s.tkv ncomp s.reqs s.blockPool reqs2 pool2 rows hloop
  subst hs1
  refine ⟨rfl, hl1, ?_⟩
  intro i hi hi2
  have hr : i < rows.length := by omega
  have hi2b : i < reqs2.length := hi2
  obtain ⟨hfst, hlp, hout, hprompt, hblocks, lastB, hlast, hslot, hbrow, hlpad⟩ :=
    hpt i hi hi2b hr
  refine ⟨hfst, hblocks, lastB, hlast, ?_⟩
  have hmap : (rows.map (fun row => row.slotRow)).getD i []
      = (rows.get ⟨i, hr⟩).slotRow := getD_map_get [] _ rows i hr
  by_cases hone : s.reqs.length = 1
  · rw [hd1 hone]
    show ((rows.map (fun row => row.slotRow))
      ++ rows.map (fun row => row.slotRow)).getD i [] = _
    rw [getD_append_left [] _ _ i (by rw [List.length_map]; omega), hmap, hslot]
  · rw [hd2 hone]
    show (rows.map (fun row => row.slotRow)).getD i [] = _
    rw [hmap, hslot]

/-- Counterexample to C2 as stated: at the reachable state `cexState1`
(`block_size = 64`, cursor 64, one resident request holding block 0) the
decode step allocates block 1 and writes slot-mapping entry `[64]`
(`1 * 64 + 64 % 64`), while the claim's formula with the advanced cursor
`tkv = 65` gives `1 * 64 + 65 % 64 = 65 ≠ 64`. -/
theorem decode_slot_formula_counterexample :
    Reachable cexState1 ∧
    prepareDecode cexState1 (fun _ => 64) = some (sDec1, outDec1) ∧
    sDec1.tkv = 65 ∧
    (alookup sDec1.reqs 0).map (fun r => r.blocks.getLast?) = some (some 1) ∧
    outDec1.slotMapping.getD 0 [] = [64] ∧
    [64] ≠ [1 * sDec1.blockSize + sDec1.tkv % sDec1.blockSize] :=
  ⟨reachable_cexState1, by decide, by decide, by decide, by decide, by decide⟩

/-- Witness for the amended C2 at the concrete decode step from `cexState1`. -/
theorem decode_step_spec_witness : sDec1.tkv = cexState1.tkv + 1 :=
  (decode_step_spec cexState1 (fun _ => 64) sDec1 outDec1 (by decide)).1

/-- **C3** (amended) A continuous-batching prefill right-pads the prompt to
`ceil(n / block_size) * block_size`, where `n = prompt_len` on a fresh batch
(and the cursor is initialized to that value) and `n = tkv` when joining an
existing decode batch — i.e. when joining, the padded length is the next block
multiple of the cursor, which equals `tkv` only when `tkv` is block-aligned.
One block per block-size chunk of the padded length is taken from the head of
the pool, and the flat slot mapping sends position `i` to
`block_id(i) * block_size + (i % block_size)`. -/
theorem prefill_padding_spec (s : CBState) (rid : Nat) (toks : List Nat)
    (maxT : Nat) (s1 : CBState) (out : PrefillOut) (hbs : 0 < s.blockSize)
    (h : preparePrompt s rid toks maxT = some (s1, out)) :
    (s.reqs = [] →
      out.inputLen = cdiv toks.length s.blockSize * s.blockSize ∧
      s1.tkv = cdiv toks.length s.blockSize * s.blockSize) ∧
    (s.reqs ≠ [] →
      out.inputLen = cdiv s.tkv s.blockSize * s.blockSize ∧
      s1.tkv = s.tkv) ∧
    alookup s1.reqs rid = some
      { blocks := s.blockPool.take (out.inputLen / s.blockSize)
        leftPadding := s1.tkv - toks.length
        outputTokenIds := []
        promptTokenIds := toks } ∧
    s1.blockPool = s.blockPool.drop (out.inputLen / s.blockSize) ∧
    (s.blockPool.take (out.inputLen / s.blockSize)).length
      = out.inputLen / s.blockSize ∧
    out.slotMapping.length = out.inputLen ∧
    ∀ i, i < out.inputLen →
      out.slotMapping.getD i 0 =
        (s.blockPool.take (out.inputLen / s.blockSize)).getD (i / s.blockSize) 0
          * s.blockSize + i % s.blockSize := by
  by_cases hempty : s.reqs = []
  · obtain ⟨hpool, hs1, hout⟩ := preparePrompt_eq_new s rid toks maxT s1 out hempty h
    have hLle : toks.length ≤ cdiv toks.length s.blockSize * s.blockSize :=
      le_cdiv_mul _ _ hbs
    have hinputLen : out.inputLen
        = cdiv toks.length s.blockSize * s.blockSize := by
      rw [hout]
      exact cbPadInputIdsLen_eq _ _ _ (Nat.le_refl _) hLle
    subst hs1
    rw [hinputLen]
    refine ⟨fun _ => ⟨rfl, rfl⟩, fun hc => absurd hempty hc, ?_, rfl, ?_, ?_, ?_⟩
    · exact alookup_aset_self _ _ _
    · rw [List.length_take]
      omega
    · rw [hout]
      simp
    · intro i hi
      rw [hout]
      have hib : i < (List.range
          (cdiv toks.length s.blockSize * s.blockSize)).length := by
        simpa using hi
      rw [getD_map_get 0 _ _ i hib, List.get_range]
  · obtain ⟨hlen, hpool, hs1, hout⟩ := preparePrompt_eq_join s rid toks maxT s1 out hempty h
    have hTle : s.tkv ≤ cdiv s.tkv s.blockSize * s.blockSize :=
      le_cdiv_mul _ _ hbs
    have hinputLen : out.inputLen = cdiv s.tkv s.blockSize * s.blockSize := by
      rw [hout]
      exact cbPadInputIdsLen_eq _ _ _ hTle (by omega)
    subst hs1
    rw [hinputLen]
    refine ⟨fun hc => absurd hc hempty, fun _ => ⟨rfl, rfl⟩, ?_, rfl, ?_, ?_, ?_⟩
    · exact alookup_aset_self _ _ _
    · rw [List.length_take]
      omega
    · rw [hout]
      simp
    · intro i hi
      rw [hout]
      have hib : i < (List.range
          (cdiv s.tkv s.blockSize * s.blockSize)).length := by
        simpa using hi
      rw [getD_map_get 0 _ _ i hib, List.get_range]

/-- Counterexample to C3 as stated: `cexState2` is reachable, has a resident
request and cursor `tkv = 65` (not block-aligned, block size 64); a prefill of
a 5-token prompt joining this batch is padded to 128 tokens, not to the
claim's `tkv = 65`. -/
theorem prefill_padding_counterexample :
    Reachable cexState2 ∧ cexState2.reqs ≠ [] ∧ cexState2.tkv = 65 ∧
    (preparePrompt cexState2 1 (List.replicate 5 9) 3).map
      (fun pr => pr.2.inputLen) = some 128 ∧ (128 : Nat) ≠ 65 :=
  ⟨reachable_cexState2, by decide, rfl, by decide, by decide⟩

/-- Witness for the amended C3 at a fresh-batch prefill of a 64-token prompt
with block size 64. -/
theorem prefill_padding_spec_witness :
    outPre1.inputLen = cdiv prompt64.length (initState 4 64).blockSize
      * (initState 4 64).blockSize :=
  ((prefill_padding_spec (initState 4 64) 0 prompt64 10 sPre1 outPre1
    (by decide) (by decide)).1 (by decide)).1

/-- **C4** (amended) The free-block count the core exposes
(`get_n_free_blocks`) equals `n_blocks` minus the sum of the
reservation-ledger entries — a conservative capacity figure — while the number
of block ids actually in the free pool equals `n_blocks` minus the number of
blocks actually held; the two can differ because reservations are worst-case
counts. -/
theorem free_count_spec (s : CBState) (hs : Reachable s) :
    getNFreeBlocks s = (s.nBlocks : Int) - (sumReserved s : Int) ∧
    s.blockPool.length + (s.reqs.map (fun p => p.2.blocks.length)).sum
      = s.nBlocks := by
  obtain ⟨hbs, hperm, hnd, hsync, hreq⟩ := reachable_inv s hs
  refine ⟨rfl, ?_⟩
  have hlen : s.blockPool.length + (heldBlocks s).length = s.nBlocks := by
    have hx := hperm.length_eq
    simp only [List.length_append, List.length_range] at hx
    exact hx
  have hflat : (heldBlocks s).length
      = (s.reqs.map (fun p => p.2.blocks.length)).sum := by
    unfold heldBlocks
    rw [List.length_flatten, List.map_map]
    rfl
  omega

/-- Counterexample to C4 as stated: in the reachable state `cexState1` the
exposed count `get_n_free_blocks` is `4 - 2 = 2` (two blocks reserved for the
resident request's worst case) while the free pool actually contains 3 block
ids. -/
theorem free_count_counterexample :
    Reachable cexState1 ∧
    getNFreeBlocks cexState1 = 2 ∧
    cexState1.blockPool.length = 3 ∧
    getNFreeBlocks cexState1 ≠ (cexState1.blockPool.length : Int) :=
  ⟨reachable_cexState1, by decide, by decide, by decide⟩

/-- Witness for the amended C4 at `cexState1`. -/
theorem free_count_spec_witness :
    getNFreeBlocks cexState1 = (cexState1.nBlocks : Int)
      - (sumReserved cexState1 : Int) :=
  (free_count_spec cexState1 reachable_cexState1).1

/-- **C5** Processing a finished request id: if the id is resident, its
request-map entry (block table and cached state) is removed, every block it
held is appended to the free pool, and its reservation-ledger entry is
removed; an id that is not resident is a no-op leaving the state unchanged. -/
theorem finished_processing_spec (s : CBState) (hs : Reachable s) (rid : Nat) :
    (∀ r, alookup s.reqs rid = some r →
      updateStatesFinished s [rid] = some
        { s with reqs := aremove s.reqs rid
                 reserved := aremove s.reserved rid
                 blockPool := s.blockPool ++ r.blocks } ∧
      alookup (aremove s.reqs rid) rid = none ∧
      alookup (aremove s.reserved rid) rid = none) ∧
    (alookup s.reqs rid = none → updateStatesFinished s [rid] = some s) := by
  have hinv := reachable_inv s hs
  obtain ⟨hbs, hperm, hnd, hsync, hreq⟩ := hinv
  constructor
  · intro r hres
    have hf := freeFinishedOne_resident_of_inv s rid r
      ⟨hbs, hperm, hnd, hsync, hreq⟩ hres
    refine ⟨?_, alookup_aremove_self _ _ hnd, alookup_aremove_self _ _ ?_⟩
    · simp only [updateStatesFinished, hf]
    · rw [hsync]
      exact hnd
  · intro hnone
    simp only [updateStatesFinished, freeFinishedOne_not_resident s rid hnone]

/-- Witness for C5: finishing the sole resident request of `cexState1` returns
block 0 to the pool and clears both entries; finishing the unknown id 5 is a
no-op. -/
theorem finished_processing_witness :
    updateStatesFinished cexState1 [0] = some
      { cexState1 with reqs := aremove cexState1.reqs 0
                       reserved := aremove cexState1.reserved 0
                       blockPool := cexState1.blockPool ++ [0] } ∧
    updateStatesFinished cexState1 [5] = some cexState1 :=
  ⟨((finished_processing_spec cexState1 reachable_cexState1 0).1
      ⟨[0], 0, [7], prompt64⟩ (by decide)).1,
    (finished_processing_spec cexState1 reachable_cexState1 5).2 (by decide)⟩

theorem get_map_pointwise {α β : Type} (f : α → β) (l : List α) (l2 : List β)
    (heq : l2 = l.map f) :
    ∀ i (hi : i < l.length) (hi2 : i < l2.length),
      l2.get ⟨i, hi2⟩ = f (l.get ⟨i, hi⟩) := by
  subst heq
  intro i hi hi2
  exact get_map_eq f l i hi2 hi

/-- **C6** Left-padding reclamation releases from every resident request
exactly `floor(min_left_padding / block_size)` whole blocks (never a partial
block), decreases every request's left padding and the shared cursor by the
same block-aligned amount `floor(min_left_padding / block_size) * block_size`,
returns the freed blocks to the pool, and is idempotent: an immediately
repeated call changes nothing. -/
theorem reduce_left_padding_reclamation (s s2 : CBState)
    (h : reduceLeftPadding s = some s2) :
    s2.tkv = s.tkv -
      (listMin (s.reqs.map (fun p => p.2.leftPadding)) / s.blockSize)
        * s.blockSize ∧
    s2.blockPool.length = s.blockPool.length +
      (listMin (s.reqs.map (fun p => p.2.leftPadding)) / s.blockSize)
        * s.reqs.length ∧
    s2.reqs.length = s.reqs.length ∧
    (∀ i (hi : i < s.reqs.length) (hi2 : i < s2.reqs.length),
      (s2.reqs.get ⟨i, hi2⟩).1 = (s.reqs.get ⟨i, hi⟩).1 ∧
      (s2.reqs.get ⟨i, hi2⟩).2.blocks = (s.reqs.get ⟨i, hi⟩).2.blocks.drop
        (listMin (s.reqs.map (fun p => p.2.leftPadding)) / s.blockSize) ∧
      (s2.reqs.get ⟨i, hi2⟩).2.leftPadding
        = (s.reqs.get ⟨i, hi⟩).2.leftPadding -
          (listMin (s.reqs.map (fun p => p.2.leftPadding)) / s.blockSize)
            * s.blockSize) ∧
    reduceLeftPadding s2 = some s2 := by
  obtain ⟨hn, hb, htkv, hresv, hreqs2, hplen, hpp, hk⟩ := reduceLeftPadding_spec s s2 h
  refine ⟨htkv, hplen, ?_, ?_, ?_⟩
  · rw [hreqs2, List.length_map]
  · intro i hi hi2
    have hget := get_map_pointwise _ s.reqs s2.reqs hreqs2 i hi hi2
    rw [hget]
    exact ⟨rfl, rfl, rfl⟩
  · apply reduceLeftPadding_offset_zero
    have hpads : s2.reqs.map (fun p => p.2.leftPadding)
        = (s.reqs.map (fun p => p.2.leftPadding)).map
            (fun x => x - (listMin (s.reqs.map (fun p => p.2.leftPadding))
              / s.blockSize) * s.blockSize) := by
      rw [hreqs2, List.map_map, List.map_map]
      rfl
    rw [hpads, listMin_map_sub, hb]
    by_cases hbs0 : s.blockSize = 0
    · rw [hbs0]
      simp
    · have hbs : 0 < s.blockSize := Nat.pos_of_ne_zero hbs0
      have hdm := Nat.div_add_mod
        (listMin (s.reqs.map (fun p => p.2.leftPadding))) s.blockSize
      have hcomm : s.blockSize *
          (listMin (s.reqs.map (fun p => p.2.leftPadding)) / s.blockSize)
          = (listMin (s.reqs.map (fun p => p.2.leftPadding)) / s.blockSize)
            * s.blockSize := Nat.mul_comm _ _
      have hmod : listMin (s.reqs.map (fun p => p.2.leftPadding)) -
          (listMin (s.reqs.map (fun p => p.2.leftPadding)) / s.blockSize)
            * s.blockSize
          = listMin (s.reqs.map (fun p => p.2.leftPadding)) % s.blockSize := by
        omega
      rw [hmod, Nat.div_eq_of_lt (Nat.mod_lt _ hbs), Nat.zero_mul]

/-- Witness for C6 at the concrete state `rState` (block size 2, minimum left
padding 3, so one whole block is reclaimed from each of the two residents and
the cursor drops by 2); the repeated call is the identity. -/
theorem reduce_left_padding_reclamation_witness :
    ∃ s2, reduceLeftPadding rState = some s2 ∧
      s2.tkv = rState.tkv -
        (listMin (rState.reqs.map (fun p => p.2.leftPadding)) / rState.blockSize)
          * rState.blockSize ∧
      reduceLeftPadding s2 = some s2 := by
  cases hred : reduceLeftPadding rState with
  | none => exact absurd hred (by decide)
  | some s2 =>
    obtain ⟨h1, h2, h3, h4, h5⟩ := reduce_left_padding_reclamation rState s2 hred
    exact ⟨s2, rfl, h1, h5⟩

/-- **C7** At admission, the reservation-ledger entry recorded for the new
request equals `ceil((tkv_at_admission + max_new_tokens - 1) / block_size)`,
where `tkv_at_admission` is the shared cursor right after the prefill's cursor
(re)initialization. -/
theorem reservation_ledger_formula (s : CBState) (rid : Nat) (toks : List Nat)
    (maxT : Nat) (s1 : CBState) (out : PrefillOut)
    (h : preparePrompt s rid toks maxT = some (s1, out)) :
    s1.tkv = (if s.reqs = [] then cdiv toks.length s.blockSize * s.blockSize
              else s.tkv) ∧
    alookup s1.reserved rid = some (cdiv (s1.tkv + maxT - 1) s.blockSize) := by
  by_cases hempty : s.reqs = []
  · obtain ⟨hpool, hs1, hout⟩ := preparePrompt_eq_new s rid toks maxT s1 out hempty h
    subst hs1
    rw [if_pos hempty]
    exact ⟨rfl, alookup_aset_self _ _ _⟩
  · obtain ⟨hlen, hpool, hs1, hout⟩ :=
      preparePrompt_eq_join s rid toks maxT s1 out hempty h
    subst hs1
    rw [if_neg hempty]
    exact ⟨rfl, alookup_aset_self _ _ _⟩

/-- Witness for C7 at the prefill of `prompt64` with `max_tokens = 10`:
the ledger records `ceil((64 + 10 - 1) / 64) = 2` blocks. -/
theorem reservation_ledger_formula_witness :
    alookup sPre1.reserved 0
      = some (cdiv (sPre1.tkv + 10 - 1) (initState 4 64).blockSize) :=
  (reservation_ledger_formula (initState 4 64) 0 prompt64 10 sPre1 outPre1
    (by decide)).2

/-- **C8** A prefill joining a non-empty decode batch has the precondition
`prompt_len <= tkv`: with requests resident and `prompt_len > tkv` the step
fails immediately (the alignment assertion aborts it, nothing is retried), and
whenever `prompt_len <= tkv` the alignment guard passes, so the failure branch
is unreachable under the precondition. -/
theorem prefill_alignment_guard (s : CBState) (rid : Nat) (toks : List Nat)
    (maxT : Nat) :
    (s.reqs ≠ [] ∧ s.tkv < toks.length →
      preparePrompt s rid toks maxT = none) ∧
    (toks.length ≤ s.tkv → prefillAligned s toks.length = true) := by
  constructor
  · rintro ⟨h1, h2⟩
    exact preparePrompt_misaligned s rid toks maxT h1 h2
  · intro hle
    unfold prefillAligned
    simp [hle]

set_option maxRecDepth 4000 in
/-- Witness for C8 at `cexState2` (`tkv = 65`): a 200-token prompt joining the
batch is rejected, while a 50-token prompt passes the alignment guard. -/
theorem prefill_alignment_guard_witness :
    (cexState2.reqs ≠ [] ∧ cexState2.tkv < 200) ∧
    preparePrompt cexState2 9 (List.replicate 200 1) 5 = none ∧
    prefillAligned cexState2 (List.replicate 50 1).length = true :=
  ⟨⟨by decide, by decide⟩,
    (prefill_alignment_guard cexState2 9 (List.replicate 200 1) 5).1
      ⟨by decide, by decide⟩,
    (prefill_alignment_guard cexState2 9 (List.replicate 50 1) 5).2 (by decide)⟩

/-- **C9** When exactly one request is resident on a decode step, every decode
input tensor is the single real row duplicated to batch size 2, the active-row
mask marks only the first row as real (`[true, false]`), and the sampled-token
write-back consumes only row 0 — the duplicate row's sample is never appended
to any real request's output history. -/
theorem single_request_decode_duplication (s : CBState) (ncomp : Nat → Nat)
    (rid : Nat) (r : ReqEntry) (s1 : CBState) (out : DecodeOut)
    (hone : s.reqs = [(rid, r)])
    (h : prepareDecode s ncomp = some (s1, out)) :
    (∃ rowT rowP tkvm lpm rowB rowS,
      out.inputTokens = [rowT, rowT] ∧
      out.inputPositions = [rowP, rowP] ∧
      out.currentTkvMask = [tkvm, tkvm] ∧
      out.leftPaddedPromptMask = [lpm, lpm] ∧
      out.blockTable = [rowB, rowB] ∧
      out.slotMapping = [rowS, rowS]) ∧
    out.indices = [true, false] ∧
    (∃ r1, s1.reqs = [(rid, r1)]) ∧
    (∀ row0 row1 rest,
      appendSampledDecode s1 (row0 :: row1 :: rest)
        = appendSampledDecode s1 [row0]) := by
  obtain ⟨hne, reqs2, pool2, rows, hloop, hs1, hlen2, hd1, hd2⟩ :=
    prepareDecode_eq s ncomp s1 out h
  obtain ⟨hl1, hl2, hkeys, hperm, hpt⟩ :=
    decodeLoop_spec s.blockSize s.tkv ncomp s.reqs s.blockPool reqs2 pool2 rows hloop
  have hlen1 : s.reqs.length = 1 := by rw [hone]; rfl
  have hrows1 : rows.length = 1 := by omega
  obtain ⟨row, hrow⟩ := List.length_eq_one.mp hrows1
  have hreqs21 : reqs2.length = 1 := by omega
  obtain ⟨p1, hp1⟩ := List.length_eq_one.mp hreqs21
  have hp1fst : p1.1 = rid := by
    have hx := hkeys
    rw [hp1, hone] at hx
    simpa using hx
  have hpair : p1 = (rid, p1.2) := by
    rw [← hp1fst]
  have hout := hd1 hlen1
  have hs1reqs : s1.reqs = [p1] := by
    rw [hs1]
    exact hp1
  refine ⟨?_, ?_, ?_, ?_⟩
  · subst hrow
    rw [hout]
    exact ⟨[row.token], [row.pos], s.tkv + 1, row.leftPad, row.blockRow, row.slotRow,
      rfl, rfl, rfl, rfl, rfl, rfl⟩
  · rw [hout, hone]
    rfl
  · refine ⟨p1.2, ?_⟩
    rw [hs1reqs, hpair]
  · intro row0 row1 rest
    unfold appendSampledDecode
    rw [hs1reqs]
    rfl

/-- Witness for C9 at the decode step from `cexState1` (single resident
request 0). -/
theorem single_request_decode_duplication_witness :
    outDec1.indices = [true, false] :=
  (single_request_decode_duplication cexState1 (fun _ => 64) 0
    ⟨[0], 0, [7], prompt64⟩ sDec1 outDec1 (by decide) (by decide)).2.1

/-- **C10** An `execute_model` call with zero total scheduled tokens still
processes the finished request ids before the early return: each finished id
is removed from the request map and the reservation ledger, and its blocks end
up in the free pool; the call returns the empty model-runner output, with the
continuous-batching wrapper reporting `tkv = 0` regardless of the current
cursor value. -/
theorem zero_token_step_spec (s s1 : CBState) (fin : List Nat)
    (hs : Reachable s) (h : updateStatesFinished s fin = some s1) :
    executeModelNoWork s fin = some (s1,
      { reqIds := [], tkv := 0, nFreeBlocks := getNFreeBlocks s1 }) ∧
    ∀ rid, rid ∈ fin →
      alookup s1.reqs rid = none ∧
      alookup s1.reserved rid = none ∧
      ∀ r, alookup s.reqs rid = some r → ∀ b, b ∈ r.blocks → b ∈ s1.blockPool := by
  constructor
  · unfold executeModelNoWork
    rw [h]
  · intro rid hmem
    exact updateStatesFinished_removes fin s s1 (reachable_inv s hs) h rid hmem

/-- Witness for C10: a zero-token step on `cexState2` (cursor 65) that
finishes request 0 frees blocks 0 and 1 back to the pool, clears the maps, and
reports `tkv = 0` even though the cursor is 65. -/
theorem zero_token_step_spec_witness :
    executeModelNoWork cexState2 [0] = some
      (⟨4, 64, 65, [2, 3, 0, 1], [], []⟩,
       { reqIds := [], tkv := 0, nFreeBlocks := 4 }) := by
  have h : updateStatesFinished cexState2 [0]
      = some ⟨4, 64, 65, [2, 3, 0, 1], [], []⟩ := by decide
  have hx := (zero_token_step_spec cexState2 ⟨4, 64, 65, [2, 3, 0, 1], [], []⟩ [0]
    reachable_cexState2 h).1
  exact hx.trans (by decide)
